import Mathlib

/-!
Verification of the shared scanning/parsing core of the agent-context-explorer
repository against its natural-language specification.

The TypeScript source is shallowly embedded: strings are `String`/`List Char`,
JavaScript regular-expression matching is modelled by explicit executable
functions that follow ECMAScript matching semantics for the concrete patterns
occurring in the source (in particular `\s` also matches the newline
character, `.` matches every character except newline, quantifiers are greedy
with backtracking, and `^`/`$` with the `m` flag anchor at line boundaries),
asynchronous fallible I/O is modelled by total functions over an explicit
filesystem tree with `Option`/`Except` for failure, and thrown-and-caught
exceptions become the corresponding `Option`/`Except` case analysis.
-/

namespace ACE

/-- JavaScript `\s` character class (whitespace, including newline). -/
def isWs (c : Char) : Bool :=
  c = ' ' || c = '\t' || c = '\n' || c = '\r' || c = Char.ofNat 0x0b ||
  c = Char.ofNat 0x0c || c = Char.ofNat 0xa0 || c = Char.ofNat 0x1680 ||
  (0x2000 ≤ c.toNat && c.toNat ≤ 0x200a) || c = Char.ofNat 0x2028 ||
  c = Char.ofNat 0x2029 || c = Char.ofNat 0x202f || c = Char.ofNat 0x205f ||
  c = Char.ofNat 0x3000 || c = Char.ofNat 0xfeff

/-- JavaScript `String.prototype.trim` on a character list. -/
def jsTrimL (cs : List Char) : List Char :=
  ((cs.dropWhile isWs).reverse.dropWhile isWs).reverse

/-- JavaScript `String.prototype.trim`. -/
def jsTrim (s : String) : String :=
  String.mk (jsTrimL s.toList)

/-- JavaScript `content.split('\n')` on a character list: the resulting list
of lines is never empty and no line contains a newline. -/
def toLines : List Char → List (List Char)
  | [] => [[]]
  | c :: rest =>
    if c = '\n' then [] :: toLines rest
    else
      match toLines rest with
      | l :: ls => (c :: l) :: ls
      | [] => [[c]]

/-- Joining lines back with `'\n'` (JavaScript `lines.join('\n')`). -/
def fromLines (ls : List (List Char)) : List Char :=
  (ls.intersperse ['\n']).flatten

/-- All suffixes of the text that start at a line start (position 0 or the
position just after a `'\n'`), in order of position.  These are exactly the
candidate match positions for a `^`-anchored regex with the `m` flag. -/
def lineStartsAux : List Char → List (List Char)
  | [] => []
  | c :: rest =>
    if c = '\n' then rest :: lineStartsAux rest else lineStartsAux rest

def lineStarts (cs : List Char) : List (List Char) :=
  cs :: lineStartsAux cs

/-- Case-insensitive character comparison (JavaScript `i` flag, ASCII). -/
def charCI (a b : Char) : Bool :=
  a.toLower = b.toLower

/-- Case-insensitive prefix test. -/
def startsWithCI : List Char → List Char → Bool
  | [], _ => true
  | _ :: _, [] => false
  | p :: ps, c :: cs => charCI p c && startsWithCI ps cs

/-- Case-insensitive substring test (`pat` occurs somewhere in `hay`). -/
def containsCI (hay pat : List Char) : Bool :=
  (hay.tails).any (fun t => startsWithCI pat t)

/-- Case-sensitive substring test (JavaScript `String.prototype.includes`). -/
def containsSub (hay pat : List Char) : Bool :=
  (hay.tails).any (fun t => pat.isPrefixOf t)

/-- JavaScript `String.prototype.indexOf` for a substring: index of the first
occurrence, `none` when absent. -/
def indexOfSub : List Char → List Char → Option Nat
  | hay, pat =>
    if pat.isPrefixOf hay then some 0
    else
      match hay with
      | [] => none
      | _ :: t => (indexOfSub t pat).map (· + 1)

/-- Lower-casing of a character list (JavaScript `toLowerCase`, ASCII). -/
def lowerL (cs : List Char) : List Char :=
  cs.map Char.toLower

/-! ## Section parser

`parseSections` from `src/src/scanner/core/asdlcHelpers.ts` (the identical
copy in `src/src/scanner/rulesScanner.ts` is the same code).  A line is a
heading when it matches `/^(#{1,6})\s+(.+)$/`; the parser closes the open
section at each heading and at end of input. -/

structure SimpleSection where
  level : Nat
  title : String
  startLine : Nat
  endLine : Nat
deriving Repr, DecidableEq

/-- `line.match(/^(#{1,6})\s+(.+)$/)` on a single line (no `'\n'` inside):
1–6 `#` characters, at least one whitespace character, then at least one more
character; the captured remainder is returned trimmed (the source stores
`headingMatch[2].trim()`, which for every successful match equals the trim of
everything after the hashes). -/
def headingMatch (line : List Char) : Option (Nat × String) :=
  let h := (line.takeWhile (· = '#')).length
  let after := line.drop h
  if 1 ≤ h ∧ h ≤ 6 then
    match after with
    | c :: _ :: _ => if isWs c then some (h, String.mk (jsTrimL after)) else none
    | _ => none
  else none

/-- The fold of `parseSections`: `cur` is the currently open section, `i` the
current line index, `n` the total number of lines. -/
def parseSectionsAux (n : Nat) : List (List Char) → Nat → Option SimpleSection → List SimpleSection
  | [], _, cur => cur.toList
  | l :: ls, i, cur =>
    match headingMatch l with
    | some (lvl, title) =>
      (match cur with
       | some c => [{ c with endLine := i - 1 }]
       | none => []) ++ parseSectionsAux n ls (i + 1) (some ⟨lvl, title, i, n - 1⟩)
    | none => parseSectionsAux n ls (i + 1) cur

/-- `parseSections(lines)` from `asdlcHelpers.ts`. -/
def parseSections (lines : List (List Char)) : List SimpleSection :=
  parseSectionsAux lines.length lines 0 none

/-- Indices (starting at `i`) of the heading lines of `ls`. -/
def headingIdxsFrom : List (List Char) → Nat → List Nat
  | [], _ => []
  | l :: ls, i =>
    if (headingMatch l).isSome then i :: headingIdxsFrom ls (i + 1)
    else headingIdxsFrom ls (i + 1)

/-- The returned sections chain: consecutive sections are adjacent and the
last one ends at line `n - 1`. -/
def chained (n : Nat) : List SimpleSection → Prop
  | [] => True
  | [s] => s.endLine = n - 1
  | s :: t :: rest => s.endLine + 1 = t.startLine ∧ chained n (t :: rest)

/-- Number of sections of `secs` whose line span covers line `j`. -/
def coverCount (secs : List SimpleSection) (j : Nat) : Nat :=
  (secs.filter (fun s => decide (s.startLine ≤ j ∧ j ≤ s.endLine))).length

example : parseSections (toLines ("# A\nx\n## B".toList)) =
    [⟨1, "A", 0, 1⟩, ⟨2, "B", 2, 2⟩] := by decide

example : parseSections (toLines ("intro\n# A".toList)) = [⟨1, "A", 1, 1⟩] := by decide

lemma parseSectionsAux_map_start (n : Nat) :
    ∀ (ls : List (List Char)) (i : Nat) (cur : Option SimpleSection),
      (parseSectionsAux n ls i cur).map SimpleSection.startLine =
        cur.toList.map SimpleSection.startLine ++ headingIdxsFrom ls i := by
  intro ls
  induction ls with
  | nil =>
    intro i cur
    cases cur <;> simp [parseSectionsAux, headingIdxsFrom]
  | cons l ls ih =>
    intro i cur
    cases hm : headingMatch l with
    | none =>
      simp [parseSectionsAux, headingIdxsFrom, hm, ih]
    | some p =>
      cases cur with
      | none => simp [parseSectionsAux, headingIdxsFrom, hm, ih]
      | some c => simp [parseSectionsAux, headingIdxsFrom, hm, ih]

lemma headingIdxsFrom_lb :
    ∀ (ls : List (List Char)) (i : Nat), ∀ x ∈ headingIdxsFrom ls i, i ≤ x := by
  intro ls
  induction ls with
  | nil => intro i x hx; simp [headingIdxsFrom] at hx
  | cons l ls ih =>
    intro i x hx
    by_cases hm : (headingMatch l).isSome <;> simp [headingIdxsFrom, hm] at hx
    · rcases hx with rfl | hx
      · exact le_refl x
      · exact Nat.le_of_succ_le (ih (i + 1) x hx)
    · exact Nat.le_of_succ_le (ih (i + 1) x hx)

lemma headingIdxsFrom_ub :
    ∀ (ls : List (List Char)) (i : Nat), ∀ x ∈ headingIdxsFrom ls i, x < i + ls.length := by
  intro ls
  induction ls with
  | nil => intro i x hx; simp [headingIdxsFrom] at hx
  | cons l ls ih =>
    intro i x hx
    by_cases hm : (headingMatch l).isSome <;> simp [headingIdxsFrom, hm] at hx
    · rcases hx with rfl | hx
      · simp
      · have := ih (i + 1) x hx; simp at this ⊢; omega
    · have := ih (i + 1) x hx; simp at this ⊢; omega

lemma headingIdxsFrom_sorted :
    ∀ (ls : List (List Char)) (i : Nat), List.Pairwise (· < ·) (headingIdxsFrom ls i) := by
  intro ls
  induction ls with
  | nil => intro i; simp [headingIdxsFrom]
  | cons l ls ih =>
    intro i
    by_cases hm : (headingMatch l).isSome <;> simp [headingIdxsFrom, hm]
    · exact ⟨fun x hx => headingIdxsFrom_lb ls (i + 1) x hx, ih (i + 1)⟩
    · exact ih (i + 1)

lemma headingIdxsFrom_nil :
    ∀ (ls : List (List Char)) (i : Nat), (∀ l ∈ ls, headingMatch l = none) →
      headingIdxsFrom ls i = [] := by
  intro ls
  induction ls with
  | nil => intro i _; simp [headingIdxsFrom]
  | cons l ls ih =>
    intro i h
    have h1 : headingMatch l = none := h l (by simp)
    simp [headingIdxsFrom, h1]
    exact ih (i + 1) (fun x hx => h x (by simp [hx]))

lemma parseSectionsAux_chained (n : Nat) :
    ∀ (ls : List (List Char)) (i : Nat) (cur : Option SimpleSection),
      (∀ c, cur = some c → c.endLine = n - 1 ∧ 1 ≤ i) →
      chained n (parseSectionsAux n ls i cur) := by
  intro ls
  induction ls with
  | nil =>
    intro i cur hcur
    cases cur with
    | none => simp [parseSectionsAux, chained]
    | some c => simpa [parseSectionsAux, chained] using (hcur c rfl).1
  | cons l ls ih =>
    intro i cur hcur
    cases hm : headingMatch l with
    | none =>
      simpa [parseSectionsAux, hm] using ih (i + 1) cur
        (fun c hc => ⟨(hcur c hc).1, Nat.le_succ_of_le (hcur c hc).2⟩)
    | some p =>
      have hnew : ∀ c', some (SimpleSection.mk p.1 p.2 i (n - 1)) = some c' →
          c'.endLine = n - 1 ∧ 1 ≤ i + 1 := by
        intro c' hc'
        cases hc'
        exact ⟨rfl, by omega⟩
      have hrec := ih (i + 1) (some ⟨p.1, p.2, i, n - 1⟩) hnew
      have hmap := parseSectionsAux_map_start n ls (i + 1) (some ⟨p.1, p.2, i, n - 1⟩)
      cases cur with
      | none =>
        simpa [parseSectionsAux, hm] using hrec
      | some c =>
        have hi : 1 ≤ i := (hcur c rfl).2
        cases hR : parseSectionsAux n ls (i + 1) (some ⟨p.1, p.2, i, n - 1⟩) with
        | nil => rw [hR] at hmap; simp at hmap
        | cons t rest =>
          rw [hR] at hmap hrec
          have ht : t.startLine = i := by
            simp at hmap
            exact hmap.1
          simp only [parseSectionsAux, hm, hR]
          simp [chained, ht]
          exact ⟨by omega, hrec⟩

lemma chained_get :
    ∀ (secs : List SimpleSection) (n : Nat), chained n secs →
      ∀ k (h2 : k + 1 < secs.length),
        (secs.get ⟨k, by omega⟩).endLine + 1 = (secs.get ⟨k + 1, h2⟩).startLine := by
  intro secs
  induction secs with
  | nil => intro n _ k h2; simp at h2
  | cons s rest ih =>
    intro n hch k h2
    cases rest with
    | nil => simp at h2
    | cons t rest2 =>
      have hch' : s.endLine + 1 = t.startLine ∧ chained n (t :: rest2) := by
        simpa [chained] using hch
      cases k with
      | zero => simpa using hch'.1
      | succ k' =>
        have := ih n hch'.2 k' (by simp at h2 ⊢; omega)
        simpa using this

lemma chained_getLast :
    ∀ (secs : List SimpleSection) (n : Nat), chained n secs →
      ∀ (h : secs ≠ []), (secs.getLast h).endLine = n - 1 := by
  intro secs
  induction secs with
  | nil => intro n _ h; simp at h
  | cons s rest ih =>
    intro n hch h
    cases rest with
    | nil =>
      have hch' : s.endLine = n - 1 := by simpa [chained] using hch
      simpa [List.getLast] using hch'
    | cons t rest2 =>
      have hch' : s.endLine + 1 = t.startLine ∧ chained n (t :: rest2) := by
        simpa [chained] using hch
      have := ih n hch'.2 (by simp)
      simpa [List.getLast] using this

lemma coverCount_zero (j : Nat) :
    ∀ (secs : List SimpleSection), (∀ u ∈ secs, j < u.startLine) → coverCount secs j = 0 := by
  intro secs
  induction secs with
  | nil => intro _; simp [coverCount]
  | cons s rest ih =>
    intro h
    have hs : j < s.startLine := h s (by simp)
    have : ¬(s.startLine ≤ j ∧ j ≤ s.endLine) := by omega
    simp only [coverCount, List.filter]
    simp [this]
    have := ih (fun u hu => h u (by simp [hu]))
    simpa [coverCount] using this

lemma chained_cover :
    ∀ (rest : List SimpleSection) (s : SimpleSection) (n j : Nat),
      chained n (s :: rest) →
      List.Pairwise (fun a b => a.startLine < b.startLine) (s :: rest) →
      s.startLine ≤ j → j ≤ n - 1 → coverCount (s :: rest) j = 1 := by
  intro rest
  induction rest with
  | nil =>
    intro s n j hch _ hs hj
    have he : s.endLine = n - 1 := by simpa [chained] using hch
    have : s.startLine ≤ j ∧ j ≤ s.endLine := ⟨hs, by omega⟩
    simp [coverCount, List.filter, this]
  | cons t rest2 ih =>
    intro s n j hch hpw hs hj
    have hch' : s.endLine + 1 = t.startLine ∧ chained n (t :: rest2) := by
      simpa [chained] using hch
    have hadj : s.endLine + 1 = t.startLine := hch'.1
    have hch2 : chained n (t :: rest2) := hch'.2
    have hpw2 : List.Pairwise (fun a b => a.startLine < b.startLine) (t :: rest2) :=
      hpw.sublist (by simp)
    rcases Nat.lt_or_ge j t.startLine with hlt | hge
    · -- j is covered by s and by nothing later
      have hcov : s.startLine ≤ j ∧ j ≤ s.endLine := ⟨hs, by omega⟩
      have hzero : coverCount (t :: rest2) j = 0 := by
        apply coverCount_zero
        intro u hu
        rcases List.mem_cons.mp hu with rfl | hu2
        · exact hlt
        · have : t.startLine < u.startLine := (List.pairwise_cons.mp hpw2).1 u hu2
          omega
      simp only [coverCount, List.filter] at hzero ⊢
      simp [hcov]
      simpa [coverCount] using hzero
    · -- j is past s; recurse
      have hno : ¬(s.startLine ≤ j ∧ j ≤ s.endLine) := by omega
      have := ih t n j hch2 hpw2 hge hj
      simp only [coverCount, List.filter] at this ⊢
      simp [hno]
      simpa [coverCount] using this

/-- The start lines of the parsed sections are exactly the heading line
indices. -/
lemma parseSections_map_start (lines : List (List Char)) :
    (parseSections lines).map SimpleSection.startLine = headingIdxsFrom lines 0 := by
  have := parseSectionsAux_map_start lines.length lines 0 none
  simpa [parseSections] using this

/-- Section start lines are strictly increasing. -/
lemma parseSections_start_sorted (lines : List (List Char)) :
    List.Pairwise (fun a b => a.startLine < b.startLine) (parseSections lines) := by
  have h1 := headingIdxsFrom_sorted lines 0
  rw [← parseSections_map_start] at h1
  exact List.pairwise_map.mp h1

/-- Every section's start line is a line index of the document. -/
lemma parseSections_start_lt (lines : List (List Char)) :
    ∀ s ∈ parseSections lines, s.startLine < lines.length := by
  intro s hs
  have hmem : s.startLine ∈ headingIdxsFrom lines 0 := by
    rw [← parseSections_map_start]
    exact List.mem_map_of_mem SimpleSection.startLine hs
  have := headingIdxsFrom_ub lines 0 s.startLine hmem
  omega

/-- C1 counterexample: the claim asserts that the sections returned by
`parseSections` partition the full line range of the document.  For the
two-line document `"intro\n# A"` the only section is `⟨1, "A", 1, 1⟩`, so
line 0 — which is in the full line range (the document has 2 lines) — is
covered by no section: the sections do not partition the full line range. -/
theorem C1_counterexample :
    parseSections (toLines ("intro\n# A".toList)) = [⟨1, "A", 1, 1⟩] ∧
    coverCount (parseSections (toLines ("intro\n# A".toList))) 0 = 0 ∧
    (toLines ("intro\n# A".toList)).length = 2 := by
  decide

/-- C1 (amended): for every input line list, `parseSections` returns the
heading sections in document order such that: a document with no heading
lines yields an empty sequence; the sections' start lines are exactly the
indices of the heading lines, in strictly increasing (document) order;
every non-final section's endLine equals the start line of the next section
minus 1; the final section's endLine equals the document's last line index;
and the sections partition the line range from the first heading line to the
document's last line with no gaps and no overlaps (lines before the first
heading belong to no section). -/
theorem C1_parseSections_amended (lines : List (List Char)) :
    ((∀ l ∈ lines, headingMatch l = none) → parseSections lines = [])
    ∧ (parseSections lines).map SimpleSection.startLine = headingIdxsFrom lines 0
    ∧ List.Pairwise (fun a b => a.startLine < b.startLine) (parseSections lines)
    ∧ (∀ k (h2 : k + 1 < (parseSections lines).length),
        ((parseSections lines).get ⟨k, by omega⟩).endLine + 1 =
          ((parseSections lines).get ⟨k + 1, h2⟩).startLine)
    ∧ (∀ h : parseSections lines ≠ [],
        ((parseSections lines).getLast h).endLine = lines.length - 1)
    ∧ (∀ F, (parseSections lines).head?.map SimpleSection.startLine = some F →
        (∀ j, F ≤ j → j < lines.length → coverCount (parseSections lines) j = 1)
        ∧ (∀ j, j < F → coverCount (parseSections lines) j = 0)) := by
  have hmap : (parseSections lines).map SimpleSection.startLine = headingIdxsFrom lines 0 :=
    parseSections_map_start lines
  have hch : chained lines.length (parseSections lines) :=
    parseSectionsAux_chained lines.length lines 0 none (fun c hc => nomatch hc)
  have hpw : List.Pairwise (fun a b => a.startLine < b.startLine) (parseSections lines) :=
    parseSections_start_sorted lines
  refine ⟨?_, hmap, hpw, ?_, ?_, ?_⟩
  · intro h
    have h0 : headingIdxsFrom lines 0 = [] := headingIdxsFrom_nil lines 0 h
    rw [h0] at hmap
    exact List.map_eq_nil_iff.mp hmap
  · intro k h2
    exact chained_get (parseSections lines) lines.length hch k h2
  · intro h
    exact chained_getLast (parseSections lines) lines.length hch h
  · intro F hF
    have hFidx : (headingIdxsFrom lines 0).head? = some F := by
      rw [← hmap, List.head?_map]
      exact hF
    have hFlb : ∀ x ∈ headingIdxsFrom lines 0, F ≤ x := by
      intro x hx
      cases hidx : headingIdxsFrom lines 0 with
      | nil => rw [hidx] at hx; simp at hx
      | cons a tl =>
        rw [hidx] at hFidx hx
        simp at hFidx
        subst hFidx
        rcases List.mem_cons.mp hx with rfl | hx2
        · exact le_refl x
        · have hs := headingIdxsFrom_sorted lines 0
          rw [hidx] at hs
          exact Nat.le_of_lt ((List.pairwise_cons.mp hs).1 x hx2)
    have hFmem : F ∈ headingIdxsFrom lines 0 := by
      cases hidx : headingIdxsFrom lines 0 with
      | nil => rw [hidx] at hFidx; simp at hFidx
      | cons a tl =>
        rw [hidx] at hFidx
        simp at hFidx
        subst hFidx
        simp
    have hn1 : 1 ≤ lines.length := by
      have := headingIdxsFrom_ub lines 0 F hFmem
      omega
    have hne : parseSections lines ≠ [] := by
      intro hnil
      rw [hnil] at hmap
      simp at hmap
      rw [hmap] at hFmem
      simp at hFmem
    obtain ⟨s, rest, hsecs⟩ : ∃ s rest, parseSections lines = s :: rest := by
      cases hs : parseSections lines with
      | nil => exact absurd hs hne
      | cons s rest => exact ⟨s, rest, rfl⟩
    have hsF : s.startLine = F := by
      have := hF
      rw [hsecs] at this
      simpa using this
    constructor
    · intro j hFj hjn
      rw [hsecs] at hch hpw ⊢
      exact chained_cover rest s lines.length j hch hpw (by omega) (by omega)
    · intro j hj
      apply coverCount_zero
      intro u hu
      have humem : u.startLine ∈ headingIdxsFrom lines 0 := by
        rw [← hmap]
        exact List.mem_map_of_mem SimpleSection.startLine hu
      have := hFlb u.startLine humem
      omega

/-- Witness for C1 (amended) at the document `"# A\nx\n## B"`. -/
theorem C1_parseSections_amended_witness :
    (parseSections (toLines ("# A\nx\n## B".toList)) ≠ []) ∧
    coverCount (parseSections (toLines ("# A\nx\n## B".toList))) 1 = 1 ∧
    ((parseSections (toLines ("# A\nx\n## B".toList))).getLast (by decide)).endLine = 2 := by
  have h := C1_parseSections_amended (toLines ("# A\nx\n## B".toList))
  refine ⟨by decide, ?_, ?_⟩
  · exact ((h.2.2.2.2.2 0 (by decide)).1 1 (by decide) (by decide))
  · exact h.2.2.2.2.1 (by decide)

/-! ## JavaScript values

Runtime values flowing out of the frontmatter extractor (gray-matter) and
out of `JSON.parse`, together with JavaScript truthiness and `||` fallback. -/

inductive JValue where
  | vnull
  | vbool (b : Bool)
  | vnum (lit : String)
  | vstr (s : String)
  | varr (xs : List JValue)
  | vobj (fields : List (String × JValue))
deriving Repr

/-- Whether a JSON numeric literal denotes zero (all mantissa digits `0`). -/
def jsonNumIsZero (lit : String) : Bool :=
  (lit.toList.takeWhile (fun c => c ≠ 'e' ∧ c ≠ 'E')).all
    (fun c => c = '0' || c = '-' || c = '+' || c = '.')

/-- JavaScript truthiness of a value (`NaN` is not producible from the JSON
grammar, so numbers are falsy exactly when they denote zero). -/
def truthy : JValue → Bool
  | .vnull => false
  | .vbool b => b
  | .vnum lit => !jsonNumIsZero lit
  | .vstr s => s ≠ ""
  | .varr _ => true
  | .vobj _ => true

/-- Property read `obj.k` on a parsed mapping: later duplicate keys win, a
missing key is `undefined` (`none`). -/
def jsGet (fields : List (String × JValue)) (k : String) : Option JValue :=
  (fields.reverse.find? (fun p => decide (p.1 = k))).map (·.2)

/-- JavaScript `a || b` where `a` is a possibly-undefined field read. -/
def jsOr (o : Option JValue) (d : JValue) : JValue :=
  match o with
  | some v => if truthy v then v else d
  | none => d

def JValue.isNull : JValue → Bool
  | .vnull => true
  | _ => false

def isArr : JValue → Bool
  | .varr _ => true
  | _ => false

/-! ## Frontmatter extractor -/

/-- Split a character list at every occurrence of `sep` (JavaScript
`String.prototype.split` with a single-character separator). -/
def splitOnChar (sep : Char) : List Char → List (List Char)
  | [] => [[]]
  | c :: rest =>
    if c = sep then [] :: splitOnChar sep rest
    else
      match splitOnChar sep rest with
      | l :: ls => (c :: l) :: ls
      | [] => [[c]]

lemma toLines_eq_splitOnChar (cs : List Char) : toLines cs = splitOnChar '\n' cs := by
  induction cs with
  | nil => rfl
  | cons c rest ih => simp [toLines, splitOnChar, ih]

/-- Split a line at its first `':'`; `none` when it has no colon. -/
def splitFirstColon : List Char → Option (List Char × List Char)
  | [] => none
  | c :: rest =>
    if c = ':' then some ([], rest)
    else (splitFirstColon rest).map (fun p => (c :: p.1, p.2))

/-- Modelled from the spec: scalar/flow-sequence parsing of a YAML value by
the frontmatter extractor (the gray-matter library, which is an external
dependency, not part of this repository).  `true`/`false` parse as booleans,
`[a, b]` as a sequence of (trimmed) strings, double-quoted text as a string,
anything else as the trimmed raw string. -/
def parseYamlValue (raw : List Char) : JValue :=
  let t := jsTrimL raw
  if t = "true".toList then .vbool true
  else if t = "false".toList then .vbool false
  else if t.head? = some '[' ∧ t.getLast? = some ']' ∧ 2 ≤ t.length then
    let inner := (t.drop 1).dropLast
    if jsTrimL inner = [] then .varr []
    else .varr ((splitOnChar ',' inner).map (fun x => .vstr (String.mk (jsTrimL x))))
  else if t.head? = some '"' ∧ t.getLast? = some '"' ∧ 2 ≤ t.length then
    .vstr (String.mk ((t.drop 1).dropLast))
  else .vstr (String.mk t)

/-- Modelled from the spec: the YAML mapping block is a sequence of
`key: value` lines (blank lines ignored); a non-blank line without a colon
makes the mapping malformed and the extractor fail. -/
def parseYamlMapping : List (List Char) → Except Unit (List (String × JValue))
  | [] => .ok []
  | l :: ls =>
    if jsTrimL l = [] then parseYamlMapping ls
    else
      match splitFirstColon l with
      | none => .error ()
      | some (k, v) =>
        match parseYamlMapping ls with
        | .error e => .error e
        | .ok rest => .ok ((String.mk (jsTrimL k), parseYamlValue v) :: rest)

/-- Modelled from the spec (§4.3): the frontmatter extractor (gray-matter,
an external dependency of the repository).  A leading block delimited by a
first line of exactly `---` and a closing `---` line holds a YAML mapping;
the rest is the body.  When no such block is detected the whole input is the
body with an empty mapping; when the mapping is malformed the extractor
fails. -/
def matterModel (text : String) : Except Unit (List (String × JValue) × String) :=
  match toLines text.toList with
  | [] => .ok ([], text)
  | first :: rest =>
    if first = "---".toList then
      match rest.findIdx? (fun l => decide (l = "---".toList)) with
      | none => .ok ([], text)
      | some k =>
        match parseYamlMapping (rest.take k) with
        | .error e => .error e
        | .ok m => .ok (m, String.mk (fromLines (rest.drop (k + 1))))
    else .ok ([], text)

/-! ## Rule parser

`parseRuleFromString` from the shared scan core (`ruleParsing.ts`). -/

structure CoreRuleMetadata where
  description : JValue
  globs : Option JValue
  alwaysApply : Option JValue
deriving Repr

/-- `parseRuleFromString(text)`: frontmatter fields with `||` defaults and a
trimmed body on success, the sentinel pair when the extractor throws. -/
def parseRuleFromString (text : String) : CoreRuleMetadata × String :=
  match matterModel text with
  | .ok (d, body) =>
    (⟨jsOr (jsGet d "description") (.vstr "No description"),
      some (jsOr (jsGet d "globs") (.varr [])),
      some (jsOr (jsGet d "alwaysApply") (.vbool false))⟩,
     jsTrim body)
  | .error _ =>
    (⟨.vstr "Error parsing file", none, none⟩, "Error reading file content")

/-- C3: for every input text, the rule parser returns metadata whose
description is the frontmatter's `description` field or (when the field is
absent or falsy) the literal "No description", whose globs is the
frontmatter's `globs` field or an empty sequence, whose alwaysApply is the
frontmatter's `alwaysApply` field or `false` (all three via JavaScript `||`
fallback), and a content equal to the trimmed body; when the frontmatter
extractor fails it returns exactly metadata description "Error parsing file"
with content "Error reading file content". -/
theorem C3_parseRuleFromString (text : String) :
    (∀ d body, matterModel text = .ok (d, body) →
      parseRuleFromString text =
        (⟨jsOr (jsGet d "description") (.vstr "No description"),
          some (jsOr (jsGet d "globs") (.varr [])),
          some (jsOr (jsGet d "alwaysApply") (.vbool false))⟩,
         jsTrim body))
    ∧ (∀ e, matterModel text = .error e →
      parseRuleFromString text =
        (⟨.vstr "Error parsing file", none, none⟩, "Error reading file content")) := by
  constructor
  · intro d body h
    simp [parseRuleFromString, h]
  · intro e h
    simp [parseRuleFromString, h]

/-- Witness for C3: a frontmatter with only `globs` takes the description
and alwaysApply defaults and the body is trimmed; a malformed frontmatter
(a non-mapping line) produces exactly the sentinel pair. -/
theorem C3_parseRuleFromString_witness :
    parseRuleFromString "---\nglobs: [a]\n---\n x " =
      (⟨.vstr "No description", some (.varr [.vstr "a"]), some (.vbool false)⟩, "x")
    ∧ parseRuleFromString "---\nbadline\n---\nx" =
      (⟨.vstr "Error parsing file", none, none⟩, "Error reading file content") := by
  constructor
  · exact ((C3_parseRuleFromString "---\nglobs: [a]\n---\n x ").1
      [("globs", .varr [.vstr "a"])] " x " (by rfl)).trans (by rfl)
  · exact ((C3_parseRuleFromString "---\nbadline\n---\nx").2 () (by rfl)).trans (by rfl)

/-! ## Skill parser

`parseSKILLMetadata` from `src/src/scanner/skillParsing.ts`.  The
heading fallback is `content.match(/^#\s+(.+)$/m)`; note that in JavaScript
`\s` also matches newline, so this regex can match a lone `#` at a line
start whose "title" text only begins on a later line. -/

/-- Attempt of `/^#\s+(.+)$/` at one line start: a `#`, at least one
whitespace character (greedy, possibly spanning newlines), then the captured
group runs to the next newline.  When the whitespace run reaches the end of
the input, greedy backtracking moves the capture start to the latest run
position that is not a newline — but never to the run's first character,
which `\s+` (minimum one repetition) must keep; everything after that
position is a newline by maximality, so the capture is that single
character.  In particular `"# "` has no match: the lone space cannot serve
both `\s+` and `(.+)`. -/
def h1At : List Char → Option (List Char)
  | '#' :: rest =>
    let run := rest.takeWhile isWs
    if run.isEmpty then none
    else
      match rest.drop run.length with
      | [] => (((run.drop 1).filter (· ≠ '\n')).getLast?).map (fun c => [c])
      | after => some (after.takeWhile (· ≠ '\n'))
  | _ => none

/-- First match of `content.match(/^#\s+(.+)$/m)`: the earliest line start
where the pattern matches. -/
def firstH1 (cs : List Char) : Option (List Char) :=
  (lineStarts cs).findSome? h1At

/-- The spec's notion of a level-1 heading: a single line of the form
`# text` (one `#`, whitespace, then non-blank text). -/
def specH1Line (l : List Char) : Bool :=
  match l with
  | '#' :: c :: rest => isWs c && decide (jsTrimL (c :: rest) ≠ [])
  | _ => false

structure SkillMetadata where
  title : Option JValue
  overview : Option JValue
  prerequisites : Option JValue
  steps : Option JValue
  tools : Option JValue
  guidance : Option JValue
deriving Repr

/-- `Array.isArray(x) ? x : undefined` on a possibly-undefined field. -/
def jsArrOnly (o : Option JValue) : Option JValue :=
  match o with
  | some v => if isArr v then some v else none
  | none => none

/-- The first-heading fallback shared by the zero-key and the extractor-failure
paths of `parseSKILLMetadata`. -/
def skillTitleFallback (content : String) : Option SkillMetadata :=
  (firstH1 content.toList).map
    (fun t => ⟨some (.vstr (String.mk (jsTrimL t))), none, none, none, none, none⟩)

/-- `parseSKILLMetadata(content)` from `skillParsing.ts`. -/
def parseSKILLMetadata (content : String) : Option SkillMetadata :=
  match matterModel content with
  | .ok (d, _) =>
    if d.length = 0 then skillTitleFallback content
    else
      some ⟨jsGet d "title", jsGet d "overview", jsArrOnly (jsGet d "prerequisites"),
            jsArrOnly (jsGet d "steps"), jsArrOnly (jsGet d "tools"), jsGet d "guidance"⟩
  | .error _ => skillTitleFallback content

/-- C4 counterexample: the claim says that with a zero-key frontmatter
mapping the parser returns a title exactly when a level-1 heading (`# text`
line) exists somewhere, and absent otherwise.  For `"#\n\nfoo"` the mapping
has zero keys and no line of the document is a level-1 heading, yet the
heading regex `/^#\s+(.+)$/m` matches across the blank lines (JavaScript
`\s` matches newline) and the parser returns `title = "foo"` instead of
absent. -/
theorem C4_counterexample :
    matterModel "#\n\nfoo" = .ok ([], "#\n\nfoo")
    ∧ (toLines ("#\n\nfoo".toList)).all (fun l => !specH1Line l) = true
    ∧ parseSKILLMetadata "#\n\nfoo" =
        some ⟨some (.vstr "foo"), none, none, none, none, none⟩ := by
  refine ⟨by rfl, by decide, by rfl⟩

/-- C4 (amended): for every input text, the skill parser behaves as: if the
frontmatter mapping has zero keys, it returns metadata
`{title: trimmed capture of the first match of /^#\s+(.+)$/m}` when that
regex matches anywhere in the document (this also matches a lone `#`
followed by whitespace spanning blank lines) and absent (no metadata
object) otherwise; if the mapping has keys, prerequisites, steps and tools
are each absent unless the source value is an ordered sequence; and on
extractor failure it falls back to the same regex search, returning absent
if that also fails. -/
theorem C4_parseSKILLMetadata_amended (content : String) :
    (∀ d body, matterModel content = .ok (d, body) → d = [] →
      parseSKILLMetadata content = (firstH1 content.toList).map
        (fun t => ⟨some (.vstr (String.mk (jsTrimL t))), none, none, none, none, none⟩))
    ∧ (∀ d body, matterModel content = .ok (d, body) → d ≠ [] →
      parseSKILLMetadata content =
        some ⟨jsGet d "title", jsGet d "overview", jsArrOnly (jsGet d "prerequisites"),
              jsArrOnly (jsGet d "steps"), jsArrOnly (jsGet d "tools"), jsGet d "guidance"⟩)
    ∧ (∀ e, matterModel content = .error e →
      parseSKILLMetadata content = (firstH1 content.toList).map
        (fun t => ⟨some (.vstr (String.mk (jsTrimL t))), none, none, none, none, none⟩)) := by
  refine ⟨?_, ?_, ?_⟩
  · intro d body h hd
    subst hd
    simp [parseSKILLMetadata, h, skillTitleFallback]
  · intro d body h hd
    have hlen : d.length ≠ 0 := by
      intro h0
      exact hd (List.length_eq_zero.mp h0)
    simp [parseSKILLMetadata, h, hlen]
  · intro e h
    simp [parseSKILLMetadata, h, skillTitleFallback]

/-- Witness for C4 (amended): a zero-key document takes its title from the
first `# ` heading; a keyed frontmatter whose `steps` is a scalar coerces
steps to absent while `tools` given as a sequence is kept; a malformed
frontmatter with no heading afterwards yields absent; and `"# "` — a `#`
followed by a single space at end of input, where `\s+` and `(.+)` cannot
both be satisfied — yields absent. -/
theorem C4_parseSKILLMetadata_amended_witness :
    parseSKILLMetadata "intro\n# Hello \nrest" =
      some ⟨some (.vstr "Hello"), none, none, none, none, none⟩
    ∧ parseSKILLMetadata "---\ntitle: T\nsteps: x\ntools: [a]\n---\nbody" =
      some ⟨some (.vstr "T"), none, none, none, some (.varr [.vstr "a"]), none⟩
    ∧ parseSKILLMetadata "---\nbadline\n---\nno heading" = none
    ∧ parseSKILLMetadata "# " = none := by
  refine ⟨?_, ?_, ?_, ?_⟩
  · exact ((C4_parseSKILLMetadata_amended "intro\n# Hello \nrest").1
      [] "intro\n# Hello \nrest" (by rfl) (by rfl)).trans (by rfl)
  · exact ((C4_parseSKILLMetadata_amended "---\ntitle: T\nsteps: x\ntools: [a]\n---\nbody").2.1
      [("title", .vstr "T"), ("steps", .vstr "x"), ("tools", .varr [.vstr "a"])] "body"
      (by rfl) (by simp)).trans (by rfl)
  · exact ((C4_parseSKILLMetadata_amended "---\nbadline\n---\nno heading").2.2
      () (by rfl)).trans (by rfl)
  · exact ((C4_parseSKILLMetadata_amended "# ").1 [] "# " (by rfl) (by rfl)).trans (by rfl)

/-! ## JSON parsing and `extractSchemaId`

`extractSchemaId` from `asdlcHelpers.ts` wraps `JSON.parse` in a
try/catch.  `JSON.parse` (a JavaScript builtin, modelled here by a
recursive-descent parser of the JSON grammar; numbers are kept as their
lexemes since nothing in the repository inspects their numeric value) is
modelled with explicit fuel bounded by the input length. -/

/-- JSON insignificant whitespace (stricter than `\s`). -/
def isJsonWs (c : Char) : Bool :=
  c = ' ' || c = '\t' || c = '\n' || c = '\r'

def skipJsonWs (cs : List Char) : List Char :=
  cs.dropWhile isJsonWs

def isJsonDigit (c : Char) : Bool :=
  '0' ≤ c && c ≤ '9'

def hexDigitVal (c : Char) : Option Nat :=
  if '0' ≤ c ∧ c ≤ '9' then some (c.toNat - '0'.toNat)
  else if 'a' ≤ c ∧ c ≤ 'f' then some (c.toNat - 'a'.toNat + 10)
  else if 'A' ≤ c ∧ c ≤ 'F' then some (c.toNat - 'A'.toNat + 10)
  else none

/-- Body of a JSON string after the opening quote, with escape handling
(`\uXXXX` is mapped through `Char.ofNat`; lone surrogates are outside the
model and map to the default character, which nothing in the claims uses). -/
def parseJsonStringBody : List Char → Except Unit (List Char × List Char)
  | [] => .error ()
  | c :: rest =>
    if c = '"' then .ok ([], rest)
    else if c = '\\' then
      match rest with
      | [] => .error ()
      | e :: rest2 =>
        if e = 'u' then
          match rest2 with
          | h1 :: h2 :: h3 :: h4 :: rest3 =>
            match hexDigitVal h1, hexDigitVal h2, hexDigitVal h3, hexDigitVal h4 with
            | some a, some b, some cc, some dd =>
              match parseJsonStringBody rest3 with
              | .ok (s, r) => .ok (Char.ofNat (((a * 16 + b) * 16 + cc) * 16 + dd) :: s, r)
              | .error u => .error u
            | _, _, _, _ => .error ()
          | _ => .error ()
        else
          match
            (if e = '"' then some '"'
             else if e = '\\' then some '\\'
             else if e = '/' then some '/'
             else if e = 'b' then some (Char.ofNat 8)
             else if e = 'f' then some (Char.ofNat 12)
             else if e = 'n' then some '\n'
             else if e = 'r' then some '\r'
             else if e = 't' then some '\t'
             else none) with
          | some mapped =>
            match parseJsonStringBody rest2 with
            | .ok (s, r) => .ok (mapped :: s, r)
            | .error u => .error u
          | none => .error ()
    else if c.toNat < 0x20 then .error ()
    else
      match parseJsonStringBody rest with
      | .ok (s, r) => .ok (c :: s, r)
      | .error u => .error u

/-- A JSON number lexeme: `-? int frac? exp?` with the leading-zero rule. -/
def parseJsonNumber (cs : List Char) : Except Unit (List Char × List Char) :=
  let (sign, cs1) :=
    match cs with
    | '-' :: r => (['-'], r)
    | _ => ([], cs)
  match cs1 with
  | [] => .error ()
  | d :: _ =>
    if ¬ isJsonDigit d then .error ()
    else
      let intPart := if d = '0' then ['0'] else cs1.takeWhile isJsonDigit
      let cs2 := cs1.drop intPart.length
      let (fracPart, cs3) :=
        match cs2 with
        | '.' :: r =>
          let ds := r.takeWhile isJsonDigit
          if ds.isEmpty then ([], cs2) else ('.' :: ds, r.drop ds.length)
        | _ => ([], cs2)
      if cs2 ≠ cs3 ∨ fracPart = [] then
        let (expPart, cs4) :=
          match cs3 with
          | e :: r =>
            if e = 'e' ∨ e = 'E' then
              let (es, r2) :=
                match r with
                | s :: r2 => if s = '+' ∨ s = '-' then ([s], r2) else ([], r)
                | [] => ([], r)
              let ds := r2.takeWhile isJsonDigit
              if ds.isEmpty then ([], cs3) else (e :: (es ++ ds), r2.drop ds.length)
            else ([], cs3)
          | [] => ([], cs3)
        if (fracPart = [] ∧ cs2 ≠ cs3) then .error ()
        else .ok (sign ++ intPart ++ fracPart ++ expPart, cs4)
      else .error ()

/-- Parsing mode: a single value, the members of an object (after the
opening brace, first member next), or the elements of an array. -/
inductive JMode where
  | mval
  | mmem
  | melt
deriving Repr

/-- Result of one parsing step, according to the mode. -/
inductive JsonRes where
  | rv (v : JValue)
  | rm (fs : List (String × JValue))
  | re (xs : List JValue)
deriving Repr

/-- Fuelled recursive-descent JSON parser (one function so that it is
structurally recursive on the fuel and reduces definitionally).
In mode `mmem`/`melt` it consumes members/elements up to and including the
closing brace/bracket. -/
def parseJ : Nat → JMode → List Char → Except Unit (JsonRes × List Char)
  | 0, _, _ => .error ()
  | fuel + 1, .mval, cs =>
    (match skipJsonWs cs with
    | [] => .error ()
    | c :: rest =>
      if c = '"' then
        match parseJsonStringBody rest with
        | .ok (s, r) => .ok (.rv (.vstr (String.mk s)), r)
        | .error u => .error u
      else if c = Char.ofNat 123 then
        match skipJsonWs rest with
        | c2 :: rest2 =>
          if c2 = Char.ofNat 125 then .ok (.rv (.vobj []), rest2)
          else
            match parseJ fuel .mmem (skipJsonWs rest) with
            | .ok (.rm fs, r) => .ok (.rv (.vobj fs), r)
            | .ok (_, _) => .error ()
            | .error u => .error u
        | [] => .error ()
      else if c = '[' then
        match skipJsonWs rest with
        | c2 :: rest2 =>
          if c2 = ']' then .ok (.rv (.varr []), rest2)
          else
            match parseJ fuel .melt (skipJsonWs rest) with
            | .ok (.re xs, r) => .ok (.rv (.varr xs), r)
            | .ok (_, _) => .error ()
            | .error u => .error u
        | [] => .error ()
      else if "null".toList.isPrefixOf (c :: rest) then
        .ok (.rv .vnull, (c :: rest).drop 4)
      else if "true".toList.isPrefixOf (c :: rest) then
        .ok (.rv (.vbool true), (c :: rest).drop 4)
      else if "false".toList.isPrefixOf (c :: rest) then
        .ok (.rv (.vbool false), (c :: rest).drop 5)
      else
        match parseJsonNumber (c :: rest) with
        | .ok (lit, r) => .ok (.rv (.vnum (String.mk lit)), r)
        | .error u => .error u)
  | fuel + 1, .mmem, cs =>
    (match skipJsonWs cs with
    | c :: rest =>
      if c = '"' then
        match parseJsonStringBody rest with
        | .ok (k, r1) =>
          (match skipJsonWs r1 with
          | ':' :: r2 =>
            (match parseJ fuel .mval r2 with
            | .ok (.rv v, r3) =>
              (match skipJsonWs r3 with
              | ',' :: r4 =>
                (match parseJ fuel .mmem r4 with
                | .ok (.rm fs, r5) => .ok (.rm ((String.mk k, v) :: fs), r5)
                | .ok (_, _) => .error ()
                | .error u => .error u)
              | c5 :: r5 =>
                if c5 = Char.ofNat 125 then .ok (.rm [(String.mk k, v)], r5)
                else .error ()
              | [] => .error ())
            | .ok (_, _) => .error ()
            | .error u => .error u)
          | _ => .error ())
        | .error u => .error u
      else .error ()
    | [] => .error ())
  | fuel + 1, .melt, cs =>
    (match parseJ fuel .mval cs with
    | .ok (.rv v, r) =>
      (match skipJsonWs r with
      | ',' :: r2 =>
        (match parseJ fuel .melt r2 with
        | .ok (.re xs, r3) => .ok (.re (v :: xs), r3)
        | .ok (_, _) => .error ()
        | .error u => .error u)
      | ']' :: r2 => .ok (.re [v], r2)
      | _ => .error ())
    | .ok (_, _) => .error ()
    | .error u => .error u)

/-- `JSON.parse(text)`: one value, then only trailing whitespace. -/
def jsonParse (text : String) : Except Unit JValue :=
  match parseJ (2 * text.length + 4) .mval text.toList with
  | .ok (.rv v, rest) => if skipJsonWs rest = [] then .ok v else .error ()
  | .ok (_, _) => .error ()
  | .error u => .error u

/-- Property access `json.k` as the source performs it: reading a property
of `null` throws (`TypeError`), objects yield the field or `undefined`,
every other value yields `undefined`. -/
def jsGetField (v : JValue) (k : String) : Except Unit (Option JValue) :=
  match v with
  | .vnull => .error ()
  | .vobj fields => .ok (jsGet fields k)
  | _ => .ok none

/-- `extractSchemaId(content)` from `asdlcHelpers.ts`: inside try/catch,
`JSON.parse` then `json.$id ?? json.id`. -/
def extractSchemaId (content : String) : Option JValue :=
  match jsonParse content with
  | .error _ => none
  | .ok v =>
    match jsGetField v "$id" with
    | .error _ => none
    | .ok o =>
      match o with
      | some x =>
        if x.isNull then
          match jsGetField v "id" with
          | .error _ => none
          | .ok o2 => o2
        else some x
      | none =>
        match jsGetField v "id" with
        | .error _ => none
        | .ok o2 => o2

/-- The claim's formula: the parsed JSON's `$id` field, falling back to the
`id` field, absent when the text is not valid JSON or both keys are missing
(field lookup on a non-object finds nothing). -/
def specSchemaId (content : String) : Option JValue :=
  match jsonParse content with
  | .error _ => none
  | .ok v =>
    match v with
    | .vobj fields =>
      match jsGet fields "$id" with
      | some x => if x.isNull then jsGet fields "id" else some x
      | none => jsGet fields "id"
    | _ => none

/-- C5: for every input string, `extractSchemaId` never raises (it is a
total function): it returns the parsed JSON's `$id` field, falling back to
the `id` field, and returns absent when the text is not valid JSON or when
both keys are missing; in particular the four examples of the spec hold. -/
theorem C5_extractSchemaId :
    (∀ s, extractSchemaId s = specSchemaId s)
    ∧ extractSchemaId "\x7b\"$id\":\"https://x/y.json\"\x7d" =
        some (.vstr "https://x/y.json")
    ∧ extractSchemaId "\x7b\"id\":\"foo\"\x7d" = some (.vstr "foo")
    ∧ extractSchemaId "not json" = none
    ∧ extractSchemaId "\x7b\"bad\":" = none := by
  refine ⟨?_, by rfl, by rfl, by rfl, by rfl⟩
  intro s
  unfold extractSchemaId specSchemaId
  cases hp : jsonParse s with
  | error u => rfl
  | ok v =>
    cases v with
    | vnull => rfl
    | vbool b => rfl
    | vnum lit => rfl
    | vstr str => rfl
    | varr xs => rfl
    | vobj fields =>
      cases jsGet fields "$id" with
      | none => rfl
      | some x => rfl

/-! ## Mission / philosophy blockquote extraction

`extractMission` and `extractCorePhilosophy` from
`src/src/scanner/rulesScanner.ts` use the unanchored regexes
`/\>\s*\*\*Project Mission:\*\*\s*(.+)/` and
`/\>\s*\*\*Core Philosophy:\*\*\s*(.+)/`: the `>` may occur anywhere, not
only at a line start. -/

/-- Attempt of `>\s*<lit>\s*(.+)` at one position: `>`, optional whitespace
(which, with JavaScript `\s`, may span newlines), the literal, optional
whitespace, then a capture of at least one non-newline character running to
the end of the line (with the usual greedy backtracking when the whitespace
reaches the end of the input). -/
def bqValueAt (lit : List Char) : List Char → Option (List Char)
  | '>' :: rest =>
    let r1 := rest.dropWhile isWs
    if lit.isPrefixOf r1 then
      let r2 := r1.drop lit.length
      let run := r2.takeWhile isWs
      match r2.drop run.length with
      | [] => ((run.filter (· ≠ '\n')).getLast?).map (fun c => [c])
      | after => some (after.takeWhile (· ≠ '\n'))
    else none
  | _ => none

def missionLit : List Char := "**Project Mission:**".toList

def philosophyLit : List Char := "**Core Philosophy:**".toList

/-- `extractMission(content)`: trimmed capture of the first match. -/
def extractMission (content : String) : Option String :=
  (content.toList.tails.findSome? (bqValueAt missionLit)).map
    (fun t => String.mk (jsTrimL t))

/-- `extractCorePhilosophy(content)`: trimmed capture of the first match. -/
def extractCorePhilosophy (content : String) : Option String :=
  (content.toList.tails.findSome? (bqValueAt philosophyLit)).map
    (fun t => String.mk (jsTrimL t))

/-- A line of the form `> **...:** <text>` (the claim's blockquote line):
the line starts with `>` followed by optional whitespace and the literal. -/
def specBlockquoteLine (lit : List Char) (l : List Char) : Bool :=
  match l with
  | '>' :: rest => lit.isPrefixOf (rest.dropWhile isWs)
  | _ => false

/-- C9 counterexample: the claim says `extractMission` matches a blockquote
LINE of the form `> **Project Mission:** <text>` and is absent when no such
line exists.  In `"a > **Project Mission:** x"` no line of that form exists
(the only line starts with `a`), yet the unanchored regex matches mid-line
and the code returns `"x"` instead of absent. -/
theorem C9_counterexample :
    (toLines ("a > **Project Mission:** x".toList)).all
      (fun l => !specBlockquoteLine missionLit l) = true
    ∧ extractMission "a > **Project Mission:** x" = some "x" := by
  exact ⟨by decide, by rfl⟩

/-- C9 (amended): for every input text, `extractMission` returns the
trimmed capture of the first match of `>` + optional whitespace +
`**Project Mission:**` + optional whitespace + text occurring ANYWHERE in
the text (the `>` need not start a line), and is absent exactly when the
pattern matches at no position; `extractCorePhilosophy` does the same for
`**Core Philosophy:**`; both are first-match-wins (shown on a two-match
document) and single-line (the capture stops at the newline). -/
theorem C9_extract_blockquotes_amended (content : String) :
    (extractMission content = none ↔
      ∀ t, t <:+ content.toList → bqValueAt missionLit t = none)
    ∧ (extractCorePhilosophy content = none ↔
      ∀ t, t <:+ content.toList → bqValueAt philosophyLit t = none)
    ∧ extractMission "> **Project Mission:** one\n> **Project Mission:** two"
        = some "one"
    ∧ extractCorePhilosophy "x\n> **Core Philosophy:** p and q\nrest"
        = some "p and q" := by
  refine ⟨?_, ?_, by rfl, by rfl⟩
  · constructor
    · intro h t ht
      have h1 : content.toList.tails.findSome? (bqValueAt missionLit) = none := by
        cases hf : content.toList.tails.findSome? (bqValueAt missionLit) with
        | none => rfl
        | some x => rw [extractMission, hf] at h; simp at h
      exact List.findSome?_eq_none_iff.mp h1 t ((List.mem_tails t content.toList).mpr ht)
    · intro h
      rw [extractMission]
      rw [List.findSome?_eq_none_iff.mpr
        (fun t ht => h t ((List.mem_tails t content.toList).mp ht))]
      rfl
  · constructor
    · intro h t ht
      have h1 : content.toList.tails.findSome? (bqValueAt philosophyLit) = none := by
        cases hf : content.toList.tails.findSome? (bqValueAt philosophyLit) with
        | none => rfl
        | some x => rw [extractCorePhilosophy, hf] at h; simp at h
      exact List.findSome?_eq_none_iff.mp h1 t ((List.mem_tails t content.toList).mpr ht)
    · intro h
      rw [extractCorePhilosophy]
      rw [List.findSome?_eq_none_iff.mpr
        (fun t ht => h t ((List.mem_tails t content.toList).mp ht))]
      rfl

/-- Witness for C9 (amended): the first-match conjunct applied at a
concrete document. -/
theorem C9_extract_blockquotes_amended_witness :
    extractMission "> **Project Mission:** one\n> **Project Mission:** two" = some "one" :=
  (C9_extract_blockquotes_amended "no mission anywhere").2.2.1

/-! ## Keyword bullet extraction

`extractListItems(content, keyword)` builds
`/^\s*-\s*\*\*${keyword}[^*]*\*\*[:\s]*(.+)$/gmi` and collects all captures;
`extractSingleValue(content, keyword)` uses
`/\*\*${keyword}[^*]*\*\*[:\s]*([^\n]+)/i` and takes the first capture.  The
keyword is spliced into the pattern; for the keywords the tech-stack
extractor passes it consists of regex-literal characters only.  Patterns
are modelled as lists of fixed-width elements (a literal character matched
case-insensitively, or `.`). -/

inductive PatElem where
  | plit (c : Char)
  | panyc
deriving Repr, DecidableEq

/-- Match a fixed-width element list against the head of the input
(case-insensitively; `.` matches everything but newline); returns the rest. -/
def matchElems : List PatElem → List Char → Option (List Char)
  | [], cs => some cs
  | _ :: _, [] => none
  | e :: es, c :: cs =>
    match e with
    | .plit p => if charCI p c then matchElems es cs else none
    | .panyc => if c ≠ '\n' then matchElems es cs else none

/-- A keyword made of regex-literal characters, as a pattern. -/
def litPat (s : String) : List PatElem :=
  s.toList.map PatElem.plit

/-- Per-line attempt of `^\s*-\s*\*\*<kw>[^*]*\*\*[:\s]*(.+)$` (the line
contains no newline): leading whitespace, `-`, whitespace, `**`, the
keyword, a maximal run without `*`, `**`, a greedy run of colons and
whitespace, then the capture runs to the end of the line; when that run
reaches the end of the line, greedy backtracking leaves its last character
as the capture. -/
def bulletCapture (kw : List PatElem) (line : List Char) : Option (List Char) :=
  match line.dropWhile isWs with
  | '-' :: l2 =>
    (match (l2.dropWhile isWs) with
    | '*' :: '*' :: l4 =>
      (match matchElems kw l4 with
      | none => none
      | some l5 =>
        (match l5.dropWhile (· ≠ '*') with
        | '*' :: '*' :: l7 =>
          let run := l7.takeWhile (fun c => c = ':' || isWs c)
          (match l7.drop run.length with
          | [] => (run.getLast?).map (fun c => [c])
          | after => some after)
        | _ => none))
    | _ => none)
  | _ => none

/-- `extractListItems` core: every line's capture, trimmed, in order. -/
def extractListItemsCore (content : List Char) (kw : List PatElem) : List String :=
  (toLines content).filterMap (fun l => (bulletCapture kw l).map (fun t => String.mk (jsTrimL t)))

/-- `extractListItems(content, keyword)` for a regex-literal keyword. -/
def extractListItems (content : String) (kw : String) : List String :=
  extractListItemsCore content.toList (litPat kw)

/-- Attempt of `\*\*<kw>[^*]*\*\*[:\s]*([^\n]+)` at one position (the
pattern is unanchored and the `[:\s]` run may span newlines; the capture is
the first non-`[:\s]` stretch up to the next newline). -/
def singleValueAt (kw : List PatElem) : List Char → Option (List Char)
  | '*' :: '*' :: l4 =>
    (match matchElems kw l4 with
    | none => none
    | some l5 =>
      (match l5.dropWhile (· ≠ '*') with
      | '*' :: '*' :: l7 =>
        let run := l7.takeWhile (fun c => c = ':' || isWs c)
        (match l7.drop run.length with
        | [] => ((run.filter (· ≠ '\n')).getLast?).map (fun c => [c])
        | after => some (after.takeWhile (· ≠ '\n')))
      | _ => none))
  | _ => none

/-- `extractSingleValue(content, keyword)` for a regex-literal keyword. -/
def extractSingleValue (content : String) (kw : String) : Option String :=
  (content.toList.tails.findSome? (singleValueAt (litPat kw))).map
    (fun t => String.mk (jsTrimL t))

/-! ## Tech-stack extraction (`extractTechStack`) -/

structure TechStackInfo where
  languages : List String
  frameworks : List String
  buildTools : List String
  testing : List String
  packageManager : Option String
deriving Repr, DecidableEq

/-- The tech-stack section test: title contains (case-insensitively)
"tech stack" or "technology". -/
def isTechTitle (s : SimpleSection) : Bool :=
  containsSub (lowerL s.title.toList) ("tech stack".toList) ||
  containsSub (lowerL s.title.toList) ("technology".toList)

/-- The end line of the tech-stack span: the line before the start of the
next level-2 section after the found one, or the document's last line. -/
def techSpanEnd (content : List Char) (sections : List SimpleSection)
    (ts : SimpleSection) : Nat :=
  match (sections.drop (sections.indexOf ts + 1)).find? (fun s => decide (s.level = 2)) with
  | some s2 => s2.startLine - 1
  | none => (toLines content).length - 1

/-- The line slice of the tech-stack span: from the section's start line up
to the line before the next level-2 section (document end when none);
`lines.slice(start, end + 1)`. -/
def techSpanLines (content : List Char) (sections : List SimpleSection)
    (ts : SimpleSection) : List (List Char) :=
  ((toLines content).drop ts.startLine).take
    (techSpanEnd content sections ts + 1 - ts.startLine)

/-- `extractTechStack(content, sections)` from `rulesScanner.ts`. -/
def extractTechStackOn (content : List Char) (sections : List SimpleSection) :
    Option TechStackInfo :=
  match sections.find? isTechTitle with
  | none => none
  | some ts =>
    let sectionContent := fromLines (techSpanLines content sections ts)
    some ⟨extractListItemsCore sectionContent (litPat "language"),
          extractListItemsCore sectionContent (litPat "framework"),
          extractListItemsCore sectionContent (litPat "build"),
          extractListItemsCore sectionContent (litPat "testing"),
          (sectionContent.tails.findSome? (singleValueAt (litPat "package manager"))).map
            (fun t => String.mk (jsTrimL t))⟩

/-- `extractTechStack` as applied to a document by `parseAgentsMd` (the
sections argument is the document's own parsed sections). -/
def extractTechStackDoc (content : String) : Option TechStackInfo :=
  extractTechStackOn content.toList (parseSections (toLines content.toList))

/-- No line produced by `toLines` contains a newline. -/
lemma noNl_toLines : ∀ cs : List Char, ∀ l ∈ toLines cs, '\n' ∉ l := by
  intro cs
  induction cs with
  | nil => intro l hl; simp [toLines] at hl; simp [hl]
  | cons c rest ih =>
    intro l hl
    by_cases hc : c = '\n'
    · subst hc
      simp [toLines] at hl
      rcases hl with rfl | hl
      · simp
      · exact ih l hl
    · simp [toLines, hc] at hl
      cases hrec : toLines rest with
      | nil =>
        rw [hrec] at hl
        simp at hl
        subst hl
        intro hmem
        simp at hmem
        exact hc hmem.symm
      | cons l0 ls =>
        rw [hrec] at hl
        simp at hl
        rcases hl with rfl | hl
        · intro hmem
          rcases List.mem_cons.mp hmem with h1 | h1
          · exact hc h1.symm
          · exact ih l0 (by rw [hrec]; simp) h1
        · exact ih l (by rw [hrec]; simp [hl])

/-- A newline-free list is a single line. -/
lemma toLines_noNl (l : List Char) (h : '\n' ∉ l) : toLines l = [l] := by
  induction l with
  | nil => rfl
  | cons c rest ih =>
    have hc : c ≠ '\n' := by intro hc; exact h (by simp [hc])
    have hrest : '\n' ∉ rest := by intro hm; exact h (by simp [hm])
    simp [toLines, hc, ih hrest]

/-- Splitting after a newline-free first line. -/
lemma toLines_append (l cs : List Char) (h : '\n' ∉ l) :
    toLines (l ++ '\n' :: cs) = l :: toLines cs := by
  induction l with
  | nil => simp [toLines]
  | cons c rest ih =>
    have hc : c ≠ '\n' := by intro hc; exact h (by simp [hc])
    have hrest : '\n' ∉ rest := by intro hm; exact h (by simp [hm])
    simp [toLines, hc, ih hrest]

/-- `toLines` is a retraction of `fromLines` on non-empty newline-free line
lists. -/
lemma toLines_fromLines :
    ∀ ls : List (List Char), ls ≠ [] → (∀ l ∈ ls, '\n' ∉ l) →
      toLines (fromLines ls) = ls := by
  intro ls
  induction ls with
  | nil => intro h _; exact absurd rfl h
  | cons l rest ih =>
    intro _ hnl
    cases rest with
    | nil =>
      have : fromLines [l] = l := by simp [fromLines]
      rw [this]
      exact toLines_noNl l (hnl l (by simp))
    | cons l2 rest2 =>
      have hl : '\n' ∉ l := hnl l (by simp)
      have hfrom : fromLines (l :: l2 :: rest2) = l ++ '\n' :: fromLines (l2 :: rest2) := by
        simp [fromLines, List.intersperse]
      rw [hfrom, toLines_append l _ hl]
      rw [ih (by simp) (fun x hx => hnl x (by simp [hx]))]

/-- In a strictly start-sorted section list, anything found past the index
of a member starts strictly later. -/
lemma find_after_indexOf_start_lt (secs : List SimpleSection) (ts s2 : SimpleSection)
    (hpw : List.Pairwise (fun a b => a.startLine < b.startLine) secs)
    (hmem : ts ∈ secs)
    (hs2 : (secs.drop (secs.indexOf ts + 1)).find? (fun s => decide (s.level = 2)) = some s2) :
    ts.startLine < s2.startLine := by
  have hs2mem : s2 ∈ secs.drop (secs.indexOf ts + 1) := List.mem_of_find?_eq_some hs2
  obtain ⟨j, hj⟩ := List.mem_iff_get.mp hs2mem
  have hidxlt : secs.indexOf ts < secs.length := List.indexOf_lt_length.mpr hmem
  have hjorig : secs.indexOf ts + 1 + j.val < secs.length := by
    have := j.isLt
    simp [List.length_drop] at this
    omega
  have hgetidx := List.indexOf_get hidxlt
  have hgetj : secs.get ⟨secs.indexOf ts + 1 + j.val, hjorig⟩ = s2 := by
    rw [← hj]
    simp [List.getElem_drop]
  have := List.pairwise_iff_get.mp hpw ⟨_, hidxlt⟩ ⟨_, hjorig⟩ (by simp; omega)
  rw [hgetidx, hgetj] at this
  exact this

/-- The tech-stack span of a parsed document is a non-empty slice of
newline-free lines. -/
lemma techSpan_sound (cs : List Char) (ts : SimpleSection)
    (hf : (parseSections (toLines cs)).find? isTechTitle = some ts) :
    techSpanLines cs (parseSections (toLines cs)) ts ≠ []
    ∧ ∀ l ∈ techSpanLines cs (parseSections (toLines cs)) ts, '\n' ∉ l := by
  have hmem : ts ∈ parseSections (toLines cs) := List.mem_of_find?_eq_some hf
  have hstart : ts.startLine < (toLines cs).length :=
    parseSections_start_lt (toLines cs) ts hmem
  refine ⟨?_, ?_⟩
  · have hlen : (techSpanLines cs (parseSections (toLines cs)) ts).length =
        min (techSpanEnd cs (parseSections (toLines cs)) ts + 1 - ts.startLine)
          ((toLines cs).length - ts.startLine) := by
      unfold techSpanLines techSpanEnd
      simp [List.length_take, List.length_drop]
    have hend : ts.startLine ≤ techSpanEnd cs (parseSections (toLines cs)) ts := by
      unfold techSpanEnd
      cases hnext : ((parseSections (toLines cs)).drop
          ((parseSections (toLines cs)).indexOf ts + 1)).find?
            (fun s => decide (s.level = 2)) with
      | none => simp; omega
      | some s2 =>
        have := find_after_indexOf_start_lt (parseSections (toLines cs)) ts s2
          (parseSections_start_sorted (toLines cs)) hmem hnext
        simp
        omega
    intro hnil
    rw [hnil] at hlen
    simp at hlen
    omega
  · intro l hl
    unfold techSpanLines at hl
    have : l ∈ toLines cs := List.mem_of_mem_drop (List.mem_of_mem_take hl)
    exact noNl_toLines cs l this

/-- The claim-side reading of the tech-stack result: each keyword's items
are collected line by line from exactly the lines of the span
`[section start line, next-H2 start line − 1]` (document end when there is
no next level-2 section). -/
def specTechStackOf (content : String) (ts : SimpleSection) : TechStackInfo :=
  let span := techSpanLines content.toList (parseSections (toLines content.toList)) ts
  ⟨span.filterMap (fun l => (bulletCapture (litPat "language") l).map (fun t => String.mk (jsTrimL t))),
   span.filterMap (fun l => (bulletCapture (litPat "framework") l).map (fun t => String.mk (jsTrimL t))),
   span.filterMap (fun l => (bulletCapture (litPat "build") l).map (fun t => String.mk (jsTrimL t))),
   span.filterMap (fun l => (bulletCapture (litPat "testing") l).map (fun t => String.mk (jsTrimL t))),
   ((fromLines span).tails.findSome? (singleValueAt (litPat "package manager"))).map
     (fun t => String.mk (jsTrimL t))⟩

/-- C6: the next-H2 cutoff of `extractTechStack`.  Generally, whenever a
tech-stack section is found, every keyword's items are exactly the per-line
bullet captures of the lines from the section's start line up to just
before the start line of the next level-2 section (document end when none),
so bullets of later sibling H2 sections are excluded while nested H3
subsections are included; when no tech-stack section exists the result is
absent.  In particular, on the spec's example document the languages are
exactly `["TypeScript"]`, and on a variant with a nested H3 subsection the
nested bullet is included. -/
theorem C6_extractTechStack_cutoff :
    (∀ (content : String) (ts : SimpleSection),
      (parseSections (toLines content.toList)).find? isTechTitle = some ts →
      extractTechStackDoc content = some (specTechStackOf content ts))
    ∧ (∀ content : String,
      (parseSections (toLines content.toList)).find? isTechTitle = none →
      extractTechStackDoc content = none)
    ∧ extractTechStackDoc
        "## Tech Stack\n- **Language:** TypeScript\n\n## Testing\n- **Language:** ShouldNotAppear"
        = some ⟨["TypeScript"], [], [], [], none⟩
    ∧ extractTechStackDoc
        "## Tech Stack\n- **Language:** TypeScript\n### Sub\n- **Language:** Nested\n## Testing\n- **Language:** ShouldNotAppear"
        = some ⟨["TypeScript", "Nested"], [], [], [], none⟩ := by
  refine ⟨?_, ?_, by rfl, by rfl⟩
  · intro content ts hf
    obtain ⟨hne, hnl⟩ := techSpan_sound content.toList ts hf
    have hround : toLines (fromLines
        (techSpanLines content.toList (parseSections (toLines content.toList)) ts)) =
        techSpanLines content.toList (parseSections (toLines content.toList)) ts :=
      toLines_fromLines _ hne hnl
    unfold extractTechStackDoc extractTechStackOn specTechStackOf
    rw [hf]
    simp only [extractListItemsCore, hround]
  · intro content hf
    unfold extractTechStackDoc extractTechStackOn
    rw [hf]

/-- Witness for C6 at the spec's example document: the general span theorem
applied there yields languages `["TypeScript"]`. -/
theorem C6_extractTechStack_cutoff_witness :
    extractTechStackDoc
      "## Tech Stack\n- **Language:** TypeScript\n\n## Testing\n- **Language:** ShouldNotAppear"
      = some (specTechStackOf
          "## Tech Stack\n- **Language:** TypeScript\n\n## Testing\n- **Language:** ShouldNotAppear"
          ⟨2, "Tech Stack", 0, 2⟩)
    ∧ specTechStackOf
        "## Tech Stack\n- **Language:** TypeScript\n\n## Testing\n- **Language:** ShouldNotAppear"
        ⟨2, "Tech Stack", 0, 2⟩ = ⟨["TypeScript"], [], [], [], none⟩ := by
  constructor
  · exact C6_extractTechStack_cutoff.1
      "## Tech Stack\n- **Language:** TypeScript\n\n## Testing\n- **Language:** ShouldNotAppear"
      ⟨2, "Tech Stack", 0, 2⟩ (by rfl)
  · rfl

/-! ## Tier extraction (`extractTierItems`)

The tier sub-heading is located with the unanchored regex
`###?\s*${tierKeyword}[^\n]*${tierName}[^\n]*` (`i` flag); the matched text
runs to the end of that line.  The slice start is
`content.indexOf(match[0]) + match[0].length`; the slice end is found by
matching `/^#{2,3}\s/m` on the remainder and then taking
`remainder.indexOf(matchedText)` — a plain substring search that can hit an
earlier mid-line occurrence of e.g. `"## "`.  Bullets are collected with
`/^\s*-\s*\*\*(ALWAYS|ASK|NEVER)\*\*\s*(.+)$/gm` (any of the three tags,
case-sensitively). -/

/-- After the hashes of `###?\s*kw[^\n]*nm[^\n]*`: maximal whitespace run
(JavaScript `\s`, so it may span newlines), the keyword (case-insensitive),
then the tier name must occur in the rest of the line; the match extends to
the end of the line.  Returns the consumed length. -/
def tierAfterHashes (kw nm : List Char) (rest : List Char) : Option Nat :=
  let run := rest.takeWhile isWs
  let r2 := rest.drop run.length
  if startsWithCI kw r2 then
    let r3 := r2.drop kw.length
    let lineRest := r3.takeWhile (· ≠ '\n')
    if containsCI lineRest nm then some (run.length + kw.length + lineRest.length)
    else none
  else none

/-- Attempt of the tier regex at one position: `##` with an optional third
`#` (greedy, with backtracking). -/
def tierAtLen (kw nm : List Char) : List Char → Option Nat
  | '#' :: '#' :: rest =>
    (match rest with
    | '#' :: rest2 =>
      (match tierAfterHashes kw nm rest2 with
      | some L => some (3 + L)
      | none =>
        match tierAfterHashes kw nm rest with
        | some L => some (2 + L)
        | none => none)
    | _ =>
      (match tierAfterHashes kw nm rest with
      | some L => some (2 + L)
      | none => none))
  | _ => none

/-- `content.match(tierRegex)`: text of the first match. -/
def jsMatchTier (cs kw nm : List Char) : Option (List Char) :=
  cs.tails.findSome? (fun t => (tierAtLen kw nm t).map (fun L => t.take L))

/-- Attempt of `/^#{2,3}\s/` at a line start (greedy `#{2,3}`; the trailing
`\s` may be the newline itself). -/
def nextHeadAt : List Char → Option (List Char)
  | '#' :: '#' :: '#' :: c :: _ =>
    if isWs c then some ['#', '#', '#', c] else none
  | '#' :: '#' :: c :: _rest =>
    if c = '#' then none
    else if isWs c then some ['#', '#', c] else none
  | _ => none

/-- `slice.match(/^#{2,3}\s/m)`: text of the first line-anchored match. -/
def jsMatchNextHeading (cs : List Char) : Option (List Char) :=
  (lineStarts cs).findSome? nextHeadAt

/-- Line-start suffixes together with their positions. -/
def lineStartsPosAux : List Char → Nat → List (Nat × List Char)
  | [], _ => []
  | c :: rest, i =>
    if c = '\n' then (i + 1, rest) :: lineStartsPosAux rest (i + 1)
    else lineStartsPosAux rest (i + 1)

def lineStartsPos (cs : List Char) : List (Nat × List Char) :=
  (0, cs) :: lineStartsPosAux cs 0

/-- Position of the first match of `/^#{2,3}\s/m` (the claim's "next
level-2-or-3 heading"). -/
def nextHeadingPos (cs : List Char) : Option Nat :=
  (lineStartsPos cs).findSome? (fun p => (nextHeadAt p.2).map (fun _ => p.1))

def tierNameList : List (List Char) :=
  ["ALWAYS".toList, "ASK".toList, "NEVER".toList]

/-- Per-line attempt of `^\s*-\s*\*\*(ALWAYS|ASK|NEVER)\*\*\s*(.+)$`
(tags matched case-sensitively; capture as usual with greedy
backtracking at end of line). -/
def tierBulletAnyTag (line : List Char) : Option (List Char) :=
  match line.dropWhile isWs with
  | '-' :: l2 =>
    (match l2.dropWhile isWs with
    | '*' :: '*' :: l4 =>
      (match tierNameList.findSome?
          (fun nm => if nm.isPrefixOf l4 then some (l4.drop nm.length) else none) with
      | none => none
      | some l5 =>
        (match l5 with
        | '*' :: '*' :: l6 =>
          let run := l6.takeWhile isWs
          (match l6.drop run.length with
          | [] => (run.getLast?).map (fun c => [c])
          | after => some after)
        | _ => none))
    | _ => none)
  | _ => none

/-- The claim-side bullet: only the requested tier's own tag. -/
def tierBulletTag (tag : List Char) (line : List Char) : Option (List Char) :=
  match line.dropWhile isWs with
  | '-' :: l2 =>
    (match l2.dropWhile isWs with
    | '*' :: '*' :: l4 =>
      if tag.isPrefixOf l4 then
        (match l4.drop tag.length with
        | '*' :: '*' :: l6 =>
          let run := l6.takeWhile isWs
          (match l6.drop run.length with
          | [] => (run.getLast?).map (fun c => [c])
          | after => some after)
        | _ => none)
      else none
    | _ => none)
  | _ => none

/-- `extractTierItems(content, tierKeyword, tierName)` from
`rulesScanner.ts`. -/
def extractTierItems (content tierKeyword tierName : String) : List String :=
  let cs := content.toList
  match jsMatchTier cs tierKeyword.toList tierName.toList with
  | none => []
  | some m =>
    let si := (indexOfSub cs m).getD 0 + m.length
    let tail := cs.drop si
    let endRel := match jsMatchNextHeading tail with
      | some hm => (indexOfSub tail hm).getD tail.length
      | none => tail.length
    ((toLines (tail.take endRel)).filterMap tierBulletAnyTag).map
      (fun t => String.mk (jsTrimL t))

/-- The claim-side tier extraction: the slice runs from just after the tier
heading up to the position of the next level-2-or-3 heading match (not a
substring search), and only bullets carrying the tier's own tag count. -/
def specTierItems (content tierKeyword tierName tag : String) : List String :=
  let cs := content.toList
  match jsMatchTier cs tierKeyword.toList tierName.toList with
  | none => []
  | some m =>
    let si := (indexOfSub cs m).getD 0 + m.length
    let tail := cs.drop si
    let endRel := match nextHeadingPos tail with
      | some p => p
      | none => tail.length
    ((toLines (tail.take endRel)).filterMap (tierBulletTag tag.toList)).map
      (fun t => String.mk (jsTrimL t))

/-- C7 counterexample: the claim says the slice runs up to the next
level-2-or-3 heading and collects that tier's bullets.  On this document the
next-heading search matches the `"## Next"` line (matched text `"## "`), but
the code cuts the slice at `indexOf("## ")`, which hits the mid-line `## `
inside `"see ## note"` first, losing the later `**ALWAYS** b` bullet; the
bullet regex also accepts the `**ASK**` bullet for tier 1.  The code returns
`["a"]` where the claim predicts `["b"]`. -/
theorem C7_counterexample :
    extractTierItems
      "## Tier 1 ALWAYS\n- **ASK** a\nsee ## note\n- **ALWAYS** b\n## Next\n- **ALWAYS** c"
      "tier 1" "always" = ["a"]
    ∧ specTierItems
      "## Tier 1 ALWAYS\n- **ASK** a\nsee ## note\n- **ALWAYS** b\n## Next\n- **ALWAYS** c"
      "tier 1" "always" "ALWAYS" = ["b"] := by
  exact ⟨by rfl, by rfl⟩

/-- C7 (amended): for every text and tier, `extractTierItems` locates the
tier's sub-heading case-insensitively via
`###?\s*<tier-keyword>[^\n]*<tier-name>[^\n]*`; a tier whose sub-heading
does not exist yields an empty sequence (not absent); when it exists, the
slice starts just after the heading and ends at the first OCCURRENCE (plain
substring `indexOf`, which may hit an earlier mid-line copy) of the text
matched by the next `^#{2,3}\s` heading search (slice end when none), and
the result is exactly the trimmed texts of the bullets
`- **<TAG>** <text>` for ANY of the three tags ALWAYS/ASK/NEVER in that
slice — so a tier heading with no matching bullets also yields an empty
sequence. -/
theorem C7_extractTierItems_amended :
    (∀ content tierKeyword tierName : String,
      jsMatchTier content.toList tierKeyword.toList tierName.toList = none →
      extractTierItems content tierKeyword tierName = [])
    ∧ (∀ (content tierKeyword tierName : String) (m : List Char),
      jsMatchTier content.toList tierKeyword.toList tierName.toList = some m →
      extractTierItems content tierKeyword tierName =
        ((toLines ((content.toList.drop ((indexOfSub content.toList m).getD 0 + m.length)).take
          (match jsMatchNextHeading
              (content.toList.drop ((indexOfSub content.toList m).getD 0 + m.length)) with
            | some hm => (indexOfSub
                (content.toList.drop ((indexOfSub content.toList m).getD 0 + m.length)) hm).getD
                  (content.toList.drop ((indexOfSub content.toList m).getD 0 + m.length)).length
            | none => (content.toList.drop
                ((indexOfSub content.toList m).getD 0 + m.length)).length))).filterMap
          tierBulletAnyTag).map (fun t => String.mk (jsTrimL t)))
    ∧ extractTierItems "## Tier 2 ASK\nnothing here" "tier 2" "ask" = []
    ∧ extractTierItems "no boundaries at all" "tier 3" "never" = []
    ∧ extractTierItems "### Tier 1 - ALWAYS\n- **ALWAYS** keep tests green \n- **NEVER** push secrets"
        "tier 1" "always" = ["keep tests green", "push secrets"] := by
  refine ⟨?_, ?_, by rfl, by rfl, by rfl⟩
  · intro content tierKeyword tierName h
    simp only [extractTierItems, h]
  · intro content tierKeyword tierName m h
    simp only [extractTierItems, h]

/-- Witness for C7 (amended): the no-sub-heading case applied concretely. -/
theorem C7_extractTierItems_amended_witness :
    extractTierItems "just prose" "tier 1" "always" = [] := by
  exact C7_extractTierItems_amended.1 "just prose" "tier 1" "always" (by rfl)

/-! ## Regex injection (`hasSection`, `extractListItems`, `extractSingleValue`)

These functions splice a caller-supplied name into a pattern string passed
to `new RegExp(...)` without escaping.  `RegExp` construction is modelled by
a small validity/compilation pass over the spliced name: literal characters
and `.` compile into fixed-width elements; other syntactically valid
constructs are flagged as outside the model; syntax errors (an unterminated
group or class, a dangling backslash or quantifier) mean the constructor
throws.  The context parameter records what the fixed pattern prefix ends
with (`\s+` — a quantified atom — for `hasSection`; the escaped literal
`\*` — an atom — for the keyword functions), which decides whether a
leading quantifier in the name is a syntax error. -/

inductive PrevTok where
  | atom
  | quant
  | lazyQuant
deriving Repr, DecidableEq

/-- A character the claim counts as regex-literal. -/
def nameLiteralChar (c : Char) : Bool :=
  !(c = '.' || c = '\\' || c = '(' || c = ')' || c = '[' || c = ']' ||
    c = Char.ofNat 123 || c = Char.ofNat 125 || c = '|' || c = '^' ||
    c = '$' || c = '*' || c = '+' || c = '?')

/-- Compilation/validity pass: `none` means `new RegExp` throws a
`SyntaxError`; `some none` means the pattern is valid but uses constructs
outside the fixed-width model; `some (some es)` is the compiled pattern. -/
def compileNameAux : Nat → List Char → Nat → PrevTok → Bool → List PatElem →
    Option (Option (List PatElem))
  | 0, _, _, _, _, _ => none
  | fuel + 1, cs, depth, prev, modelled, acc =>
    match cs with
    | [] => if depth ≠ 0 then none else some (if modelled then some acc.reverse else none)
    | c :: rest =>
      if c = '.' then compileNameAux fuel rest depth .atom modelled (.panyc :: acc)
      else if c = '\\' then
        match rest with
        | [] => none
        | _ :: r2 => compileNameAux fuel r2 depth .atom false acc
      else if c = '(' then compileNameAux fuel rest (depth + 1) .quant false acc
      else if c = ')' then
        if depth = 0 then none else compileNameAux fuel rest (depth - 1) .atom false acc
      else if c = '[' then
        match rest.dropWhile (· ≠ ']') with
        | [] => none
        | _ :: r2 => compileNameAux fuel r2 depth .atom false acc
      else if c = '|' then compileNameAux fuel rest depth .quant false acc
      else if c = '*' ∨ c = '+' then
        if prev = .atom then compileNameAux fuel rest depth .quant false acc else none
      else if c = '?' then
        if prev = .atom then compileNameAux fuel rest depth .quant false acc
        else if prev = .quant then compileNameAux fuel rest depth .lazyQuant false acc
        else none
      else if c = Char.ofNat 123 ∨ c = Char.ofNat 125 then
        compileNameAux fuel rest depth .atom false acc
      else if c = '^' ∨ c = '$' then
        compileNameAux fuel rest depth .quant false acc
      else compileNameAux fuel rest depth .atom modelled (.plit c :: acc)

def compileName (start : PrevTok) (name : List Char) : Option (Option (List PatElem)) :=
  compileNameAux (name.length + 1) name 0 start true []

inductive JsOutcome (α : Type) where
  | throws
  | val (a : α)
  | unmodelled
deriving Repr, DecidableEq

/-- Match of `^##\s+` at one line start followed by a pluggable test for
the rest of the pattern (`\s+` greedy with backtracking: some non-empty
whitespace prefix is consumed, then the test must succeed). -/
def h2AtWith (test : List Char → Bool) : List Char → Bool
  | '#' :: '#' :: rest =>
    let run := rest.takeWhile isWs
    (List.range run.length).any (fun i => test (rest.drop (i + 1)))
  | _ => false

/-- Match of `^##\s+<elems>` at one line start. -/
def h2HeadMatch (es : List PatElem) : List Char → Bool :=
  h2AtWith (fun cs => (matchElems es cs).isSome)

/-- The matching core of `hasSection`: `regex.test(content)` for
`^##\s+<pattern>` with the `m` and `i` flags. -/
def hasSectionRun (cs : List Char) (es : List PatElem) : Bool :=
  (lineStarts cs).any (fun t => h2HeadMatch es t)

/-- `hasSection(content, sectionName)` from `asdlcHelpers.ts` (also in
`rulesScanner.ts`), with `RegExp` construction modelled. -/
def hasSectionM (content sectionName : String) : JsOutcome Bool :=
  match compileName .quant sectionName.toList with
  | none => .throws
  | some none => .unmodelled
  | some (some es) => .val (hasSectionRun content.toList es)

/-- `hasSection` for regex-literal names (as the spec scanner calls it with
`'Blueprint'` / `'Contract'`). -/
def hasSection (content sectionName : String) : Bool :=
  hasSectionRun content.toList (litPat sectionName)

/-- `extractListItems` with `RegExp` construction modelled. -/
def extractListItemsM (content keyword : String) : JsOutcome (List String) :=
  match compileName .atom keyword.toList with
  | none => .throws
  | some none => .unmodelled
  | some (some es) => .val (extractListItemsCore content.toList es)

/-- `extractSingleValue` with `RegExp` construction modelled. -/
def extractSingleValueM (content keyword : String) : JsOutcome (Option String) :=
  match compileName .atom keyword.toList with
  | none => .throws
  | some none => .unmodelled
  | some (some es) =>
    .val ((content.toList.tails.findSome? (singleValueAt es)).map
      (fun t => String.mk (jsTrimL t)))

/-- The claim-side literal reading of `hasSection`: at some line start,
`##`, at least one whitespace character, then the name itself literally
(case-insensitively) as a prefix. -/
def specLiteralH2 (content name : String) : Bool :=
  (lineStarts content.toList).any (fun t => h2AtWith (startsWithCI name.toList) t)

/-- A literal pattern matches exactly as a case-insensitive prefix test. -/
lemma matchElems_litPat (name : List Char) :
    ∀ cs : List Char, (matchElems (name.map PatElem.plit) cs).isSome = startsWithCI name cs := by
  induction name with
  | nil => intro cs; simp [matchElems, startsWithCI]
  | cons c name ih =>
    intro cs
    cases cs with
    | nil => simp [matchElems, startsWithCI]
    | cons x xs =>
      simp only [List.map, matchElems, startsWithCI]
      by_cases h : charCI c x
      · simp [h, ih]
      · simp [h]

/-- All-literal names compile to their literal element list. -/
lemma compileNameAux_literal :
    ∀ (cs : List Char) (fuel : Nat) (prev : PrevTok) (acc : List PatElem),
      cs.length < fuel → (∀ c ∈ cs, nameLiteralChar c) →
      compileNameAux fuel cs 0 prev true acc = some (some (acc.reverse ++ cs.map PatElem.plit)) := by
  intro cs
  induction cs with
  | nil =>
    intro fuel prev acc hfuel _
    cases fuel with
    | zero => omega
    | succ f => simp [compileNameAux]
  | cons c rest ih =>
    intro fuel prev acc hfuel hlit
    cases fuel with
    | zero => omega
    | succ f =>
      have hc := hlit c (by simp)
      simp only [nameLiteralChar, Bool.not_eq_true'] at hc
      simp only [Bool.or_eq_false_iff, decide_eq_false_iff_not] at hc
      obtain ⟨⟨⟨⟨⟨⟨⟨⟨⟨⟨⟨⟨⟨h1, h2⟩, h3⟩, h4⟩, h5⟩, h6⟩, h7⟩, h8⟩, h9⟩, h10⟩, h11⟩, h12⟩, h13⟩, h14⟩ := hc
      simp only [compileNameAux, h1, h2, h3, h4, h5, h6, h7, h8, h9, h10, h11, h12, h13, h14,
        if_false, or_self, ite_false]
      have := ih f .atom (.plit c :: acc) (by simp at hfuel ⊢; omega)
        (fun x hx => hlit x (by simp [hx]))
      rw [this]
      simp

/-- C10: `hasSection` interpolates the caller-supplied section name into a
regular expression without escaping: for every name consisting only of
regex-literal characters it is a literal case-insensitive prefix match
against level-2 headings; the name `"."` (a metacharacter) matches
non-literally (`hasSection("## X", ".")` is true though no heading
contains a literal `.`); and the name `"("` makes `RegExp` construction
throw, so `hasSection` is not total over all string inputs — and the same
unescaped splicing makes `extractListItems` and `extractSingleValue` throw
on the keyword `"("`. -/
theorem C10_hasSection_injection :
    (∀ name : String, (∀ c ∈ name.toList, nameLiteralChar c = true) →
      ∀ content : String, hasSectionM content name = .val (specLiteralH2 content name))
    ∧ (hasSectionM "## X" "." = .val true ∧ specLiteralH2 "## X" "." = false)
    ∧ hasSectionM "## Anything" "(" = .throws
    ∧ extractListItemsM "- **(x**: v" "(" = .throws
    ∧ extractSingleValueM "**(x**: v" "(" = .throws := by
  refine ⟨?_, ⟨by rfl, by rfl⟩, by rfl, by rfl, by rfl⟩
  intro name hlit content
  have hcomp : compileName .quant name.toList = some (some (name.toList.map PatElem.plit)) := by
    unfold compileName
    rw [compileNameAux_literal name.toList (name.toList.length + 1) .quant []
      (by omega) hlit]
    simp
  unfold hasSectionM
  rw [hcomp]
  have hfun : (fun cs => (matchElems (name.toList.map PatElem.plit) cs).isSome) =
      startsWithCI name.toList := funext (matchElems_litPat name.toList)
  exact congrArg JsOutcome.val
    (congrArg (fun f => (lineStarts content.toList).any fun t => h2AtWith f t) hfun)

/-- Witness for C10 at the literal name `"Blueprint"`. -/
theorem C10_hasSection_injection_witness :
    hasSectionM "intro\n## Blueprint\nbody" "Blueprint" =
      .val (specLiteralH2 "intro\n## Blueprint\nbody" "Blueprint")
    ∧ specLiteralH2 "intro\n## Blueprint\nbody" "Blueprint" = true := by
  constructor
  · exact C10_hasSection_injection.1 "Blueprint" (by decide) "intro\n## Blueprint\nbody"
  · rfl

/-! ## Filesystem model and scan orchestrators

The `IFileSystem` abstraction (readFile / readDirectory / stat, each of
which may reject) is modelled by total functions over an explicit
filesystem tree.  Directory entry lists are encoded as a constructor chain
(`dirCons`/`dirNil`) so that every traversal is structurally recursive and
reduces definitionally.  A rejected operation is `none`; a present file
whose read rejects carries `.error ()` as its content.  Paths are component
lists (`path.join` is list append, `path.basename` the last component). -/

inductive FileType where
  | unknown
  | file
  | directory
  | symbolicLink
deriving Repr, DecidableEq

inductive FsNode where
  /-- A regular file: its read result and optional mtime (epoch millis). -/
  | file (content : Except Unit String) (mtime : Option Nat)
  /-- A symbolic link (readable like a file). -/
  | symlink (content : Except Unit String)
  /-- A directory whose listing rejects (access denied). -/
  | dirUnreadable
  /-- An entry of unrecognized type. -/
  | unknown
  /-- The empty directory. -/
  | dirNil
  /-- A directory entry `name ↦ child` followed by the rest of the
  directory. -/
  | dirCons (name : String) (child : FsNode) (rest : FsNode)
deriving Repr

def nodeTypeOf : FsNode → FileType
  | .file _ _ => .file
  | .symlink _ => .symbolicLink
  | .unknown => .unknown
  | _ => .directory

def nodeMtime : FsNode → Option Nat
  | .file _ m => m
  | _ => none

/-- Resolve a component path in the tree. -/
def lookupNode : FsNode → List String → Option FsNode
  | n, [] => some n
  | .dirCons nm child rest, x :: ps =>
    if nm = x then lookupNode child ps else lookupNode rest (x :: ps)
  | _, _ :: _ => none

/-- `fs.stat(path)`: `none` models the rejection for a non-existent path. -/
def fsStat (root : FsNode) (p : List String) : Option (FileType × Option Nat) :=
  (lookupNode root p).map (fun n => (nodeTypeOf n, nodeMtime n))

/-- `fs.readFile(path)`: rejects for directories, missing paths, and files
whose content is an error. -/
def fsReadFile (root : FsNode) (p : List String) : Option String :=
  match lookupNode root p with
  | some (.file c _) => c.toOption
  | some (.symlink c) => c.toOption
  | _ => none

/-- `fs.readDirectory(path)`: the `(name, type)` pairs of a directory;
rejects for missing paths, non-directories and unreadable directories. -/
def dirEntriesOf : FsNode → List (String × FileType)
  | .dirCons nm child rest => (nm, nodeTypeOf child) :: dirEntriesOf rest
  | _ => []

def fsReadDir (root : FsNode) (p : List String) : Option (List (String × FileType)) :=
  match lookupNode root p with
  | some .dirNil => some []
  | some (.dirCons nm child rest) => some ((nm, nodeTypeOf child) :: dirEntriesOf rest)
  | _ => none

/-- `path.extname(name)` (Node semantics on a base name). -/
def extname (cs : List Char) : List Char :=
  if cs = ".".toList ∨ cs = "..".toList then []
  else
    let revSuffix := cs.reverse.takeWhile (· ≠ '.')
    if revSuffix.length = cs.length then []
    else if cs.length - 1 - revSuffix.length = 0 then []
    else '.' :: revSuffix.reverse

/-- Extension normalization of `listFilesRecursive`: lower-case, with a
leading dot added when missing. -/
def normalizeExt (e : String) : String :=
  if e.toList.head? = some '.' then String.mk (lowerL e.toList)
  else String.mk ('.' :: lowerL e.toList)

/-- The extension filter: `path.extname(name).toLowerCase()` is in the
normalized extension list. -/
def extOk (normExts : List String) (nm : String) : Bool :=
  normExts.contains (String.mk (lowerL (extname nm.toList)))

/-- The recursive walk of `listFilesRecursive`, over a directory node:
skips `.`/`..`, descends into directories (an unreadable subdirectory
contributes nothing — its `readDirectory` rejection is caught), collects
files and symbolic links passing the extension filter, and ignores entries
of unknown type. -/
def walkDir (normExts : List String) (path : List String) : FsNode → List (List String)
  | .dirCons nm child rest =>
    (if nm = "." ∨ nm = ".." then []
     else
       match child with
       | .file _ _ => if extOk normExts nm then [path ++ [nm]] else []
       | .symlink _ => if extOk normExts nm then [path ++ [nm]] else []
       | .unknown => []
       | .dirUnreadable => []
       | .dirNil => walkDir normExts (path ++ [nm]) .dirNil
       | .dirCons a b c => walkDir normExts (path ++ [nm]) (.dirCons a b c))
    ++ walkDir normExts path rest
  | _ => []

/-- `listFilesRecursive(fs, rootPath, extensions)` from `listFiles.ts`:
the walk starts at `rootPath`; any failure to read a directory (including a
missing root) yields the empty contribution. -/
def listFilesRecursive (root : FsNode) (rootPath : List String)
    (extensions : List String) : List (List String) :=
  match lookupNode root rootPath with
  | some n => walkDir (extensions.map normalizeExt) rootPath n
  | none => []

structure CoreRule where
  path : List String
  metadata : CoreRuleMetadata
  content : String
  fileName : String
deriving Repr

/-- `scanRulesCore(fs, projectRoot, userRoot)` from `scanRulesCore.ts`:
walk `{projectRoot}/.cursor/rules` for `.mdc`/`.md`, parse each file; a
file whose read rejects degrades to the sentinel entry (`parseRuleFromString`
itself never throws, so the catch only fires on read failures). -/
def scanRulesCore (root : FsNode) (projectRoot _userRoot : List String) : List CoreRule :=
  (listFilesRecursive root (projectRoot ++ [".cursor", "rules"]) [".mdc", ".md"]).map
    (fun p =>
      match fsReadFile root p with
      | some text =>
        ⟨p, (parseRuleFromString text).1, (parseRuleFromString text).2, (p.getLast?).getD ""⟩
      | none =>
        ⟨p, ⟨.vstr "Error parsing file", none, none⟩, "Error reading file content",
         (p.getLast?).getD ""⟩)

/-- A two-file rules tree: reading `a.mdc` rejects, `b.mdc` is
well-formed. -/
def fsC2 : FsNode :=
  .dirCons ".cursor"
    (.dirCons "rules"
      (.dirCons "a.mdc" (.file (.error ()) none)
        (.dirCons "b.mdc" (.file (.ok "---\ndescription: hi\n---\nBody text") none) .dirNil))
      .dirNil)
    .dirNil

/-- C2: for every filesystem tree and roots, `scanRulesCore` returns one
entry per discovered file (never a shorter list) and never throws (it is a
total function): an entry whose read rejects carries content
"Error reading file content" and metadata description "Error parsing file",
while an entry whose read succeeds carries its real parsed metadata and
body.  In particular, on a directory where `a.mdc` rejects and its sibling
`b.mdc` is well-formed it returns exactly the sentinel entry followed by
the parsed sibling. -/
theorem C2_scanRulesCore (root : FsNode) (projectRoot userRoot : List String) :
    (scanRulesCore root projectRoot userRoot).length =
      (listFilesRecursive root (projectRoot ++ [".cursor", "rules"]) [".mdc", ".md"]).length
    ∧ (∀ (k : Nat) (p : List String),
        (listFilesRecursive root (projectRoot ++ [".cursor", "rules"]) [".mdc", ".md"])[k]? =
          some p →
        fsReadFile root p = none →
        (scanRulesCore root projectRoot userRoot)[k]? =
          some ⟨p, ⟨.vstr "Error parsing file", none, none⟩, "Error reading file content",
                (p.getLast?).getD ""⟩)
    ∧ (∀ (k : Nat) (p : List String) (text : String),
        (listFilesRecursive root (projectRoot ++ [".cursor", "rules"]) [".mdc", ".md"])[k]? =
          some p →
        fsReadFile root p = some text →
        (scanRulesCore root projectRoot userRoot)[k]? =
          some ⟨p, (parseRuleFromString text).1, (parseRuleFromString text).2,
                (p.getLast?).getD ""⟩)
    ∧ scanRulesCore fsC2 [] [] =
        [⟨[".cursor", "rules", "a.mdc"], ⟨.vstr "Error parsing file", none, none⟩,
          "Error reading file content", "a.mdc"⟩,
         ⟨[".cursor", "rules", "b.mdc"], ⟨.vstr "hi", some (.varr []), some (.vbool false)⟩,
          "Body text", "b.mdc"⟩] := by
  refine ⟨by simp [scanRulesCore], ?_, ?_, by rfl⟩
  · intro k p hp hread
    unfold scanRulesCore
    rw [List.getElem?_map, hp]
    simp [hread]
  · intro k p text hp hread
    unfold scanRulesCore
    rw [List.getElem?_map, hp]
    simp [hread]

/-- Witness for C2 on the concrete two-file tree: the failing first file
yields the sentinel entry and the sibling the parsed entry. -/
theorem C2_scanRulesCore_witness :
    (scanRulesCore fsC2 [] []).length =
      (listFilesRecursive fsC2 [".cursor", "rules"] [".mdc", ".md"]).length
    ∧ (scanRulesCore fsC2 [] [])[0]? =
        some ⟨[".cursor", "rules", "a.mdc"], ⟨.vstr "Error parsing file", none, none⟩,
              "Error reading file content", "a.mdc"⟩
    ∧ (scanRulesCore fsC2 [] [])[1]? =
        some ⟨[".cursor", "rules", "b.mdc"],
              ⟨.vstr "hi", some (.varr []), some (.vbool false)⟩, "Body text", "b.mdc"⟩ := by
  refine ⟨(C2_scanRulesCore fsC2 [] []).1, ?_, ?_⟩
  · exact (C2_scanRulesCore fsC2 [] []).2.1 0 [".cursor", "rules", "a.mdc"] (by rfl) (by rfl)
  · exact (C2_scanRulesCore fsC2 [] []).2.2.1 1 [".cursor", "rules", "b.mdc"]
      "---\ndescription: hi\n---\nBody text" (by rfl) (by rfl)

/-! ## ASDLC artifact scanning (`scanAsdlcCore`)

The three sub-scans of `scanAsdlcCore.ts`: `AGENTS.md`, `specs/` and
`schemas/`.  (`Promise.all` of independent computations is their tuple.)
`lastModified` is kept as the raw epoch-millis value; the `toISOString`
formatting is a bijective presentation not modelled.  Boolean record fields
named `exists` in the source are called `existsB` here (`exists` is a Lean
keyword). -/

structure CoreAgentsMdInfo where
  existsB : Bool
  path : Option (List String)
  content : Option String
  sections : List SimpleSection
deriving Repr, DecidableEq

structure CoreSpecFile where
  domain : String
  path : List String
  hasBlueprint : Bool
  hasContract : Bool
  lastModified : Option Nat
deriving Repr, DecidableEq

structure CoreSchemaFile where
  name : String
  path : List String
  schemaId : Option JValue
deriving Repr

structure SpecsScan where
  existsB : Bool
  path : Option (List String)
  specs : List CoreSpecFile
deriving Repr, DecidableEq

structure SchemasScan where
  existsB : Bool
  path : Option (List String)
  schemas : List CoreSchemaFile
deriving Repr

structure CoreAsdlcArtifacts where
  agentsMd : CoreAgentsMdInfo
  specs : SpecsScan
  schemas : SchemasScan
  hasAnyArtifacts : Bool
deriving Repr

/-- `scanAgentsMdCore`: stat then read `{projectRoot}/AGENTS.md`; any
rejection, or a non-regular-file type, reports non-existence. -/
def scanAgentsMdCore (root : FsNode) (projectRoot : List String) : CoreAgentsMdInfo :=
  let p := projectRoot ++ ["AGENTS.md"]
  match fsStat root p with
  | none => ⟨false, none, none, []⟩
  | some (t, _) =>
    if t = FileType.file then
      match fsReadFile root p with
      | some text => ⟨true, some p, some text, parseSections (toLines text.toList)⟩
      | none => ⟨false, none, none, []⟩
    else ⟨false, none, none, []⟩

/-- Remove a suffix when present (`name.replace(/\.json$/, '')`). -/
def stripSuffix (suf cs : List Char) : List Char :=
  if suf.isSuffixOf cs then cs.take (cs.length - suf.length) else cs

/-- `scanSpecsCore`: stat `{projectRoot}/specs`; when it is a readable
directory, each subdirectory containing a readable regular `spec.md` file
yields one entry (per-entry failures are skipped); any rejection of the
root stat/listing reports non-existence. -/
def scanSpecsCore (root : FsNode) (projectRoot : List String) : SpecsScan :=
  let sp := projectRoot ++ ["specs"]
  match fsStat root sp with
  | none => ⟨false, none, []⟩
  | some (t, _) =>
    if t = FileType.directory then
      match fsReadDir root sp with
      | none => ⟨false, none, []⟩
      | some entries =>
        ⟨true, some sp, entries.filterMap (fun e =>
          if e.2 = FileType.directory then
            let sfp := sp ++ [e.1, "spec.md"]
            match fsStat root sfp with
            | none => none
            | some (t2, mt) =>
              if t2 = FileType.file then
                match fsReadFile root sfp with
                | some text =>
                  some ⟨e.1, sfp, hasSection text "Blueprint", hasSection text "Contract",
                        match mt with
                        | some m => if m ≠ 0 then some m else none
                        | none => none⟩
                | none => none
              else none
          else none)⟩
    else ⟨false, none, []⟩

/-- `scanSchemasCore`: stat `{projectRoot}/schemas`; when it is a readable
directory, each `.json` file or symlink yields one entry (a rejected read
yields the entry without a schema id); any rejection of the root
stat/listing reports non-existence. -/
def scanSchemasCore (root : FsNode) (projectRoot : List String) : SchemasScan :=
  let sp := projectRoot ++ ["schemas"]
  match fsStat root sp with
  | none => ⟨false, none, []⟩
  | some (t, _) =>
    if t = FileType.directory then
      match fsReadDir root sp with
      | none => ⟨false, none, []⟩
      | some entries =>
        ⟨true, some sp, entries.filterMap (fun e =>
          if (e.2 = FileType.file ∨ e.2 = FileType.symbolicLink)
              ∧ (".json".toList.isSuffixOf e.1.toList) then
            let sfp := sp ++ [e.1]
            match fsReadFile root sfp with
            | some text =>
              some ⟨String.mk (stripSuffix ".json".toList e.1.toList), sfp,
                    extractSchemaId text⟩
            | none =>
              some ⟨String.mk (stripSuffix ".json".toList e.1.toList), sfp, none⟩
          else none)⟩
    else ⟨false, none, []⟩

/-- `scanAsdlcCore(fs, projectRoot)`: the three independent sub-scans and
the derived `hasAnyArtifacts` flag. -/
def scanAsdlcCore (root : FsNode) (projectRoot : List String) : CoreAsdlcArtifacts :=
  let a := scanAgentsMdCore root projectRoot
  let s := scanSpecsCore root projectRoot
  let sch := scanSchemasCore root projectRoot
  ⟨a, s, sch, a.existsB || s.existsB || sch.existsB⟩

/-- A project tree with only a `schemas/` directory (no `AGENTS.md`, no
`specs/`). -/
def fsC8 : FsNode :=
  .dirCons "schemas"
    (.dirCons "a.json" (.file (.ok "\x7b\"$id\":\"https://x/y.json\"\x7d") (some 5)) .dirNil)
    .dirNil

/-- C8: `scanAsdlcCore` never fails when a category root is absent (it is
total): a non-existent `specs/` directory yields `{exists: false, specs: []}`
rather than a failure; each of the three sub-scans is exactly its own
sub-scan of the tree, independent of the others; and the bundle's
`hasAnyArtifacts` equals the logical OR of the three existence flags.  On a
tree with only `schemas/`, the specs sub-scan reports non-existence while
the bundle still has artifacts. -/
theorem C8_scanAsdlcCore (root : FsNode) (projectRoot : List String) :
    (fsStat root (projectRoot ++ ["specs"]) = none →
      (scanAsdlcCore root projectRoot).specs = ⟨false, none, []⟩)
    ∧ (scanAsdlcCore root projectRoot).agentsMd = scanAgentsMdCore root projectRoot
    ∧ (scanAsdlcCore root projectRoot).specs = scanSpecsCore root projectRoot
    ∧ (scanAsdlcCore root projectRoot).schemas = scanSchemasCore root projectRoot
    ∧ (scanAsdlcCore root projectRoot).hasAnyArtifacts =
        ((scanAsdlcCore root projectRoot).agentsMd.existsB ||
         (scanAsdlcCore root projectRoot).specs.existsB ||
         (scanAsdlcCore root projectRoot).schemas.existsB) := by
  refine ⟨?_, rfl, rfl, rfl, rfl⟩
  intro h
  show scanSpecsCore root projectRoot = ⟨false, none, []⟩
  simp only [scanSpecsCore, h]

/-- Witness for C8 on the schemas-only tree. -/
theorem C8_scanAsdlcCore_witness :
    (scanAsdlcCore fsC8 []).specs = ⟨false, none, []⟩
    ∧ (scanAsdlcCore fsC8 []).agentsMd.existsB = false
    ∧ (scanAsdlcCore fsC8 []).schemas.existsB = true
    ∧ (scanAsdlcCore fsC8 []).hasAnyArtifacts = true := by
  refine ⟨?_, by rfl, by rfl, ?_⟩
  · exact (C8_scanAsdlcCore fsC8 []).1 (by rfl)
  · exact ((C8_scanAsdlcCore fsC8 []).2.2.2.2).trans (by rfl)

end ACE
